import Mathlib

/-!
Verification of the scanner/parser front end of `esquivias/interpreter`.

The Go sources embedded here are `token/token.go` (the final snapshot with the
full operator and keyword set), `lexer/lexer.go`, `parser/parser.go` (the final
Pratt parser) and the final `ast` package (the snapshot whose nodes carry
`String()` renderers).  Go strings are modelled as `List Char` / `String`,
`token.Type` (a Go string type) as `String`, 64-bit integers as `Int` with
explicit range checks, nillable pointers/interfaces as `Option`, and the
parser's potentially diverging loops by explicit fuel (`none` = the Go code
would still be running).
-/

namespace Interp

/-- `token.Type` is a Go string type. -/
abbrev TokenType := String

/-- `token.Token`: an immutable pair of a kind and the literal text. -/
structure Token where
  type : TokenType
  literal : String
deriving Repr, DecidableEq

namespace token

/-- token.ILLEGAL -/
def ILLEGAL : TokenType := "ILLEGAL"
/-- token.EOF -/
def EOF : TokenType := "EOF"
/-- token.IDENT -/
def IDENT : TokenType := "IDENT"
/-- token.INT -/
def INT : TokenType := "INT"
/-- token.ASSIGN -/
def ASSIGN : TokenType := "="
/-- token.ASTERISK -/
def ASTERISK : TokenType := "*"
/-- token.BANG -/
def BANG : TokenType := "!"
/-- token.EQ -/
def EQ : TokenType := "=="
/-- token.GT -/
def GT : TokenType := ">"
/-- token.LT -/
def LT : TokenType := "<"
/-- token.MINUS -/
def MINUS : TokenType := "-"
/-- token.NEQ -/
def NEQ : TokenType := "!="
/-- token.PLUS -/
def PLUS : TokenType := "+"
/-- token.SLASH -/
def SLASH : TokenType := "/"
/-- token.COMMA -/
def COMMA : TokenType := ","
/-- token.LBRACE -/
def LBRACE : TokenType := "\x7b"
/-- token.LPAREN -/
def LPAREN : TokenType := "("
/-- token.RBRACE -/
def RBRACE : TokenType := "\x7d"
/-- token.RPAREN -/
def RPAREN : TokenType := ")"
/-- token.SEMICOLON -/
def SEMICOLON : TokenType := ";"
/-- token.ELSE -/
def ELSE : TokenType := "ELSE"
/-- token.FALSE -/
def FALSE : TokenType := "FALSE"
/-- token.FUNCTION -/
def FUNCTION : TokenType := "FUNCTION"
/-- token.IF -/
def IF : TokenType := "IF"
/-- token.LET -/
def LET : TokenType := "LET"
/-- token.RETURN -/
def RETURN : TokenType := "RETURN"
/-- token.TRUE -/
def TRUE : TokenType := "TRUE"

/-- `token.LookupIdent`: the keyword table lookup, returning `IDENT` on a miss.
The Go `keywords` map has entries else/false/fn/if/let/return/true. -/
def LookupIdent (ident : String) : TokenType :=
  if ident = "else" then ELSE
  else if ident = "false" then FALSE
  else if ident = "fn" then FUNCTION
  else if ident = "if" then IF
  else if ident = "let" then LET
  else if ident = "return" then RETURN
  else if ident = "true" then TRUE
  else IDENT

end token

/-! ## The scanner (`lexer/lexer.go`) -/

/-- The `Lexer` struct.  Go indexes the input string by byte; the inputs in
this development are ASCII, modelled as `List Char`.  The `0` byte sentinel is
`Char.ofNat 0`. -/
structure Lexer where
  input : List Char
  position : Nat
  readPosition : Nat
  ch : Char
deriving Repr, DecidableEq

/-- The NUL sentinel the scanner uses for "no character". -/
def nulChar : Char := Char.ofNat 0

/-- `Lexer.readChar`: set the next character and advance the positions. -/
def readChar (l : Lexer) : Lexer :=
  { l with
    ch := if l.input.length ≤ l.readPosition then nulChar
          else l.input.getD l.readPosition nulChar
    position := l.readPosition
    readPosition := l.readPosition + 1 }

/-- `lexer.New`: zero-valued struct, then one `readChar`. -/
def Lexer.new (s : String) : Lexer :=
  readChar { input := s.data, position := 0, readPosition := 0, ch := nulChar }

/-- `Lexer.peekChar`: the next character, without advancing. -/
def peekChar (l : Lexer) : Char :=
  if l.input.length ≤ l.readPosition then nulChar
  else l.input.getD l.readPosition nulChar

/-- `isLetter` from lexer.go. -/
def isLetter (c : Char) : Bool :=
  ('a' ≤ c && c ≤ 'z') || ('A' ≤ c && c ≤ 'Z') || c = '_'

/-- `isDigit` from lexer.go. -/
def isDigit (c : Char) : Bool :=
  '0' ≤ c && c ≤ '9'

/-- The whitespace test inlined in `skipWhitespace` (space, tab, newline, CR). -/
def isWs (c : Char) : Bool :=
  c = ' ' || c = '\t' || c = '\n' || c = '\r'

/-- The common shape of the scanner's three character loops
(`skipWhitespace`, `readIdentifier`, `readNumber`): advance while the current
character satisfies `p`.  The Go loops carry no fuel; here fuel makes the
function structurally recursive, and `advanceWhile_eq` below proves that with
the fuel `loopFuel` the definition satisfies exactly the Go loop's equation
whenever `p` rejects the NUL sentinel (as all three instances do), so no fuel
is ever exhausted. -/
def advanceWhile (p : Char → Bool) : Nat → Lexer → Lexer
  | 0, l => l
  | fuel + 1, l => if p l.ch then advanceWhile p fuel (readChar l) else l

/-- Fuel that always suffices for one scanner character loop. -/
def loopFuel (l : Lexer) : Nat := l.input.length + 2

/-- `Lexer.skipWhitespace`. -/
def skipWhitespace (l : Lexer) : Lexer := advanceWhile isWs (loopFuel l) l

/-- `Lexer.readIdentifier`: the maximal letter run from the current position,
returned together with the advanced lexer (Go returns the slice
`l.input[position:l.position]`). -/
def readIdentifier (l : Lexer) : String × Lexer :=
  let l2 := advanceWhile isLetter (loopFuel l) l
  (String.mk ((l.input.drop l.position).take (l2.position - l.position)), l2)

/-- `Lexer.readNumber`: the maximal digit run from the current position. -/
def readNumber (l : Lexer) : String × Lexer :=
  let l2 := advanceWhile isDigit (loopFuel l) l
  (String.mk ((l.input.drop l.position).take (l2.position - l.position)), l2)

/-- `newToken` from lexer.go. -/
def newToken (t : TokenType) (c : Char) : Token :=
  { type := t, literal := String.mk [c] }

/-- `Lexer.NextToken`: one token per call.  The Go switch is rendered as an
if-chain in the same case order; the `case 0` EOF branch, like every
single-character branch, falls through to the final `readChar`. -/
def NextToken (l0 : Lexer) : Token × Lexer :=
  let l := skipWhitespace l0
  if l.ch = '=' then
    if peekChar l = '=' then
      let c := l.ch
      let l2 := readChar l
      ({ type := token.EQ, literal := String.mk [c, l2.ch] }, readChar l2)
    else (newToken token.ASSIGN l.ch, readChar l)
  else if l.ch = '+' then (newToken token.PLUS l.ch, readChar l)
  else if l.ch = '-' then (newToken token.MINUS l.ch, readChar l)
  else if l.ch = '!' then
    if peekChar l = '=' then
      let c := l.ch
      let l2 := readChar l
      ({ type := token.NEQ, literal := String.mk [c, l2.ch] }, readChar l2)
    else (newToken token.BANG l.ch, readChar l)
  else if l.ch = '*' then (newToken token.ASTERISK l.ch, readChar l)
  else if l.ch = '/' then (newToken token.SLASH l.ch, readChar l)
  else if l.ch = '<' then (newToken token.LT l.ch, readChar l)
  else if l.ch = '>' then (newToken token.GT l.ch, readChar l)
  else if l.ch = ',' then (newToken token.COMMA l.ch, readChar l)
  else if l.ch = '\x7b' then (newToken token.LBRACE l.ch, readChar l)
  else if l.ch = '(' then (newToken token.LPAREN l.ch, readChar l)
  else if l.ch = '\x7d' then (newToken token.RBRACE l.ch, readChar l)
  else if l.ch = ')' then (newToken token.RPAREN l.ch, readChar l)
  else if l.ch = ';' then (newToken token.SEMICOLON l.ch, readChar l)
  else if l.ch = nulChar then ({ type := token.EOF, literal := "" }, readChar l)
  else if isLetter l.ch then
    let r := readIdentifier l
    ({ type := token.LookupIdent r.1, literal := r.1 }, r.2)
  else if isDigit l.ch then
    let r := readNumber l
    ({ type := token.INT, literal := r.1 }, r.2)
  else (newToken token.ILLEGAL l.ch, readChar l)

/-- Drive `NextToken` until the first EOF token (as the repository's tests and
the parser do); each non-EOF token consumes at least one input character, so
`length + 1` calls always reach EOF. -/
def tokenizeFuel : Nat → Lexer → List Token
  | 0, _ => []
  | n + 1, l =>
    let r := NextToken l
    if r.1.type = token.EOF then [r.1] else r.1 :: tokenizeFuel n r.2

/-- The token sequence of an input text, ending in its first EOF token. -/
def tokenize (s : String) : List Token :=
  tokenizeFuel (s.data.length + 1) (Lexer.new s)

/-! ## The AST (final `ast` package snapshot, the one with `String()` renderers) -/

/-- `ast.Identifier`. -/
structure Identifier where
  token : Token
  value : String
deriving Repr, DecidableEq

/-- The expression node variants.  Go holds children behind the nillable
`ast.Expression` interface, modelled as `Option Expression`. -/
inductive Expression where
  | identifier (i : Identifier)
  | integerLiteral (token : Token) (value : Int)
  | prefixExpression (token : Token) (operator : String) (right : Option Expression)
  | infixExpression (token : Token) (left : Option Expression) (operator : String)
      (right : Option Expression)
deriving Repr

/-- The statement node variants.  `LetStatement.Name` is a nillable
`*ast.Identifier`, `Value`/`ReturnValue`/`Expression` nillable interfaces. -/
inductive Statement where
  | letStatement (token : Token) (name : Option Identifier) (value : Option Expression)
  | returnStatement (token : Token) (returnValue : Option Expression)
  | expressionStatement (token : Token) (expression : Option Expression)
deriving Repr

/-- `ast.Program`. -/
structure Program where
  statements : List Statement
deriving Repr

/-- `Expression.String()` renderers.  Dereferencing a nil child
(`pe.Right.String()` with nil `Right`) panics in Go; that is modelled by
`none`. -/
def renderExpr : Expression → Option String
  | .identifier i => some i.value
  | .integerLiteral tok _ => some tok.literal
  | .prefixExpression _ operator (some r) =>
      (renderExpr r).map (fun rs => "(" ++ operator ++ rs ++ ")")
  | .prefixExpression _ _ none => none
  | .infixExpression _ (some l) operator (some r) =>
      match renderExpr l, renderExpr r with
      | some ls, some rs => some ("(" ++ ls ++ " " ++ operator ++ " " ++ rs ++ ")")
      | _, _ => none
  | .infixExpression _ none _ _ => none
  | .infixExpression _ _ _ none => none

/-- `Statement.String()`: `LetStatement`, `ReturnStatement` and
`ExpressionStatement` render as in ast.go; a nil `Value`/`ReturnValue`
contributes nothing, a nil `Expression` renders as `""`, while dereferencing a
nil `Name` would panic (`none`). -/
def renderStmt : Statement → Option String
  | .letStatement tok (some n) none =>
      some (tok.literal ++ " " ++ n.value ++ " = " ++ ";")
  | .letStatement tok (some n) (some v) =>
      (renderExpr v).map (fun vs => tok.literal ++ " " ++ n.value ++ " = " ++ vs ++ ";")
  | .letStatement _ none _ => none
  | .returnStatement tok none => some (tok.literal ++ " " ++ ";")
  | .returnStatement tok (some v) =>
      (renderExpr v).map (fun vs => tok.literal ++ " " ++ vs ++ ";")
  | .expressionStatement _ (some e) => renderExpr e
  | .expressionStatement _ none => some ""

/-- `Program.String()`: write each statement's rendering into the buffer in
order. -/
def renderProgram (p : Program) : Option String :=
  p.statements.foldlM (fun out st => (renderStmt st).map (out ++ ·)) ""

/-! ## The parser (`parser/parser.go`, final snapshot) -/

/-- The precedence ladder (`iota` starting below LOWEST): LOWEST=1, EQUALS=2,
LESSGREATER=3, SUM=4, PRODUCT=5, PREFIX=6, CALL=7. -/
def LOWEST : Nat := 1

/-- EQUALS precedence (`==`, `!=`). -/
def EQUALS : Nat := 2

/-- LESSGREATER precedence (`<`, `>`). -/
def LESSGREATER : Nat := 3

/-- SUM precedence (`+`, `-`). -/
def SUM : Nat := 4

/-- PRODUCT precedence (`*`, `/`). -/
def PRODUCT : Nat := 5

/-- PREFIX precedence (unary `!`, `-`). -/
def PREFIX : Nat := 6

/-- CALL precedence (reserved). -/
def CALL : Nat := 7

/-- The `precedences` map; `peekPrecedence`/`curPrecedence` default a missing
kind to LOWEST. -/
def precedenceOf (t : TokenType) : Nat :=
  if t = token.EQ then EQUALS
  else if t = token.NEQ then EQUALS
  else if t = token.LT then LESSGREATER
  else if t = token.GT then LESSGREATER
  else if t = token.PLUS then SUM
  else if t = token.MINUS then SUM
  else if t = token.SLASH then PRODUCT
  else if t = token.ASTERISK then PRODUCT
  else LOWEST

/-- Modelled from the Go standard library `strconv.ParseInt(s, 0, 64)` as
`parseIntegerLiteral` calls it, for the literal texts this scanner can put in
an INT token (runs of ASCII digits: no sign, no `0x`-style prefix letters, no
underscores).  With base argument 0 the base is inferred from the text — a
leading `0` digit followed by further digits selects octal, so `09` is a
syntax error — and the value must fit in a signed 64-bit integer, else a range
error.  `none` models a non-nil `err`; a non-digit or out-of-base character is
likewise a syntax error. -/
def digitsInBase (b : Nat) (ds : List Char) : Option Nat :=
  ds.foldlM
    (fun acc c =>
      if isDigit c ∧ c.toNat - '0'.toNat < b then some (acc * b + (c.toNat - '0'.toNat))
      else none)
    0

/-- Largest signed 64-bit integer, `math.MaxInt64`. -/
def int64Max : Nat := 9223372036854775807

/-- See `digitsInBase`: the modelled `strconv.ParseInt(s, 0, 64)`. -/
def goParseInt (s : String) : Option Int :=
  match s.data with
  | [] => none
  | c :: cs =>
    match (if c = '0' then digitsInBase 8 cs else digitsInBase 10 (c :: cs)) with
    | none => none
    | some n => if n ≤ int64Max then some (Int.ofNat n) else none

/-- The `Parser` struct.  The Go parser holds the `*lexer.Lexer` and pulls one
token per `nextToken` call; the scanner is deterministic and, once it has
reported EOF, reports EOF with empty literal forever, so the stream it will
deliver is exactly `tokenize` of the input followed by EOF tokens.  `ts` is
the not-yet-pulled part of that stream; pulling from an exhausted `ts` yields
the EOF token, exactly as the scanner does at end of input. -/
structure Parser where
  ts : List Token
  curToken : Token
  peekToken : Token
  errors : List String
deriving Repr

/-- Drawing one token from the scanner at the parser's cursor. -/
def pullToken : List Token → Token × List Token
  | [] => ({ type := token.EOF, literal := "" }, [])
  | t :: ts => (t, ts)

/-- `Parser.nextToken`: shift cur ← peek, draw a fresh peek. -/
def pNextToken (p : Parser) : Parser :=
  let r := pullToken p.ts
  { p with curToken := p.peekToken, peekToken := r.1, ts := r.2 }

/-- `parser.New`: zero-valued token buffers and empty errors, then two
`nextToken` calls to prime `curToken` and `peekToken`. -/
def Parser.new (ts : List Token) : Parser :=
  pNextToken (pNextToken { ts := ts, curToken := ⟨"", ""⟩, peekToken := ⟨"", ""⟩, errors := [] })

/-- `Parser.curTokenIs`. -/
def curTokenIs (p : Parser) (t : TokenType) : Bool := p.curToken.type = t

/-- `Parser.peekTokenIs`. -/
def peekTokenIs (p : Parser) (t : TokenType) : Bool := p.peekToken.type = t

/-- `Parser.peekError`: append the expected-vs-actual diagnostic. -/
def peekError (p : Parser) (t : TokenType) : Parser :=
  { p with errors := p.errors ++
      ["expected next token to be " ++ t ++ ", got " ++ p.peekToken.type ++ " instead"] }

/-- `Parser.expectPeek`: advance on a match, else record the diagnostic. -/
def expectPeek (p : Parser) (t : TokenType) : Bool × Parser :=
  if peekTokenIs p t then (true, pNextToken p) else (false, peekError p t)

/-- `Parser.noPrefixParseFnError`. -/
def noPrefixParseFnError (p : Parser) (t : TokenType) : Parser :=
  { p with errors := p.errors ++ ["no prefix parse function for " ++ t ++ " found"] }

/-- `Parser.peekPrecedence`. -/
def peekPrecedence (p : Parser) : Nat := precedenceOf p.peekToken.type

/-- `Parser.curPrecedence`. -/
def curPrecedence (p : Parser) : Nat := precedenceOf p.curToken.type

/-- The kinds `New` registers in `prefixParseFns` (IDENT, INT, BANG, MINUS). -/
def hasPrefixFn (t : TokenType) : Bool :=
  t = token.IDENT || t = token.INT || t = token.BANG || t = token.MINUS

/-- The kinds `New` registers in `infixParseFns`, all mapped to
`parseInfixExpression`. -/
def hasInfixFn (t : TokenType) : Bool :=
  t = token.PLUS || t = token.MINUS || t = token.SLASH || t = token.ASTERISK ||
  t = token.EQ || t = token.NEQ || t = token.LT || t = token.GT

/-- `Parser.parseIdentifier`. -/
def parseIdentifier (p : Parser) : Option Expression :=
  some (.identifier ⟨p.curToken, p.curToken.literal⟩)

/-- `Parser.parseIntegerLiteral`: convert the literal with
`strconv.ParseInt(lit, 0, 64)`; on error append the diagnostic (`%q` wraps the
literal in double quotes) and return nil. -/
def parseIntegerLiteral (p : Parser) : Option Expression × Parser :=
  match goParseInt p.curToken.literal with
  | none =>
    (none, { p with errors := p.errors ++
        ["could not parse \"" ++ p.curToken.literal ++ "\" as integer"] })
  | some v => (some (.integerLiteral p.curToken v), p)

/- The parser's recursive expression engine.  The Go functions recurse
through the registered rule tables with no structural bound; the `Nat`
argument is fuel, decremented at each recursive call and loop iteration, and
`none` means the Go code would still be running after that many steps. -/
mutual

/-- `Parser.parseExpression`, inlining the `prefixParseFns` dispatch that
`New` registers: IDENT → `parseIdentifier`, INT → `parseIntegerLiteral`, BANG
and MINUS → `parsePrefixExpression`; any other kind has no prefix rule. -/
def parseExpression : Nat → Nat → Parser → Option (Option Expression × Parser)
  | 0, _, _ => none
  | fuel + 1, precedence, p =>
    if p.curToken.type = token.IDENT then
      infixLoop fuel precedence (parseIdentifier p) p
    else if p.curToken.type = token.INT then
      let r := parseIntegerLiteral p
      infixLoop fuel precedence r.1 r.2
    else if p.curToken.type = token.BANG ∨ p.curToken.type = token.MINUS then
      (parsePrefixExpression fuel p).bind fun r => infixLoop fuel precedence r.1 r.2
    else
      some (none, noPrefixParseFnError p p.curToken.type)

/-- The `for` loop inside `parseExpression`: while peek is not `;` and the
minimum precedence is below peek's, draw the registered infix rule. -/
def infixLoop : Nat → Nat → Option Expression → Parser → Option (Option Expression × Parser)
  | 0, _, _, _ => none
  | fuel + 1, precedence, leftExp, p =>
    if peekTokenIs p token.SEMICOLON = false ∧ precedence < peekPrecedence p then
      if hasInfixFn p.peekToken.type then
        (parseInfixExpression fuel leftExp (pNextToken p)).bind fun r =>
          infixLoop fuel precedence r.1 r.2
      else some (leftExp, p)
    else some (leftExp, p)

/-- `Parser.parsePrefixExpression`: capture the operator, advance, parse the
operand at PREFIX precedence. -/
def parsePrefixExpression : Nat → Parser → Option (Option Expression × Parser)
  | 0, _ => none
  | fuel + 1, p =>
    let tok := p.curToken
    (parseExpression fuel PREFIX (pNextToken p)).map fun r =>
      (some (.prefixExpression tok tok.literal r.1), r.2)

/-- `Parser.parseInfixExpression`: capture operator and left operand, record
the operator's precedence, advance, parse the right operand at it. -/
def parseInfixExpression : Nat → Option Expression → Parser → Option (Option Expression × Parser)
  | 0, _, _ => none
  | fuel + 1, left, p =>
    let tok := p.curToken
    let precedence := curPrecedence p
    (parseExpression fuel precedence (pNextToken p)).map fun r =>
      (some (.infixExpression tok left tok.literal r.1), r.2)

end

/-- The `for !p.curTokenIs(token.SEMICOLON) { p.nextToken() }` skip loops of
`parseLetStatement` and `parseReturnStatement`.  The Go loop has no EOF guard
(its own comment: "A missing semicolon will cause a timeout"); `none` means
the loop is still running after `fuel` iterations. -/
def skipToSemicolon : Nat → Parser → Option Parser
  | 0, _ => none
  | fuel + 1, p =>
    if curTokenIs p token.SEMICOLON then some p
    else skipToSemicolon fuel (pNextToken p)

/-- `Parser.parseLetStatement`: require IDENT then `=` after the `let`, then
skip to the `;`, building no value expression. -/
def parseLetStatement (fuel : Nat) (p : Parser) : Option (Option Statement × Parser) :=
  let tok := p.curToken
  let r1 := expectPeek p token.IDENT
  if r1.1 = false then some (none, r1.2)
  else
    let p1 := r1.2
    let name : Identifier := ⟨p1.curToken, p1.curToken.literal⟩
    let r2 := expectPeek p1 token.ASSIGN
    if r2.1 = false then some (none, r2.2)
    else
      (skipToSemicolon fuel r2.2).map fun p3 =>
        (some (.letStatement tok (some name) none), p3)

/-- `Parser.parseReturnStatement`: advance past `return`, skip to the `;`,
building no value expression. -/
def parseReturnStatement (fuel : Nat) (p : Parser) : Option (Option Statement × Parser) :=
  let tok := p.curToken
  (skipToSemicolon fuel (pNextToken p)).map fun p2 =>
    (some (.returnStatement tok none), p2)

/-- `Parser.parseExpressionStatement`: one expression at LOWEST, then an
optional `;`. -/
def parseExpressionStatement (fuel : Nat) (p : Parser) : Option (Option Statement × Parser) :=
  let tok := p.curToken
  (parseExpression fuel LOWEST p).map fun r =>
    (some (.expressionStatement tok r.1),
     if peekTokenIs r.2 token.SEMICOLON then pNextToken r.2 else r.2)

/-- `Parser.parseStatement` dispatch on the current token's kind. -/
def parseStatement (fuel : Nat) (p : Parser) : Option (Option Statement × Parser) :=
  if p.curToken.type = token.LET then parseLetStatement fuel p
  else if p.curToken.type = token.RETURN then parseReturnStatement fuel p
  else parseExpressionStatement fuel p

/-- The loop of `Parser.ParseProgram`: parse statements until the current
token is EOF, appending each non-nil statement, advancing after every
attempt. -/
def parseProgramLoop : Nat → Parser → List Statement → Option (List Statement × Parser)
  | 0, _, _ => none
  | fuel + 1, p, acc =>
    if curTokenIs p token.EOF then some (acc, p)
    else
      (parseStatement fuel p).bind fun r =>
        parseProgramLoop fuel (pNextToken r.2)
          (match r.1 with | some s => acc ++ [s] | none => acc)

/-- The end-to-end pipeline: scan the source text, prime the parser
(`parser.New`), run `ParseProgram` with the given fuel, and read off the
program together with the `Errors()` list. -/
def parseFuel (fuel : Nat) (s : String) : Option (Program × List String) :=
  (parseProgramLoop fuel (Parser.new (tokenize s)) []).map fun r =>
    ({ statements := r.1 }, r.2.errors)

/-! ## Specification-side definitions used by the theorems -/

/-- The scanner's cursor invariant: `readPosition` is one past `position`, and
`ch` is the character under `position`, or the NUL sentinel at or past the end
of the input. -/
def LexInv (l : Lexer) : Prop :=
  l.readPosition = l.position + 1 ∧
  l.ch = (if l.position < l.input.length then l.input.getD l.position nulChar else nulChar)

/-- The lexer state after `k` calls of `NextToken`. -/
def lexSteps : Nat → Lexer → Lexer
  | 0, l => l
  | k + 1, l => lexSteps k (NextToken l).2

/-- The body of `NextToken` after its whitespace skip, as a function of the
skipped-to state (`NextToken_eq_nextTokenAt` checks the two agree
definitionally); used to factor the scanner simulation proof. -/
def nextTokenAt (l : Lexer) : Token × Lexer :=
  if l.ch = '=' then
    if peekChar l = '=' then
      let c := l.ch
      let l2 := readChar l
      ({ type := token.EQ, literal := String.mk [c, l2.ch] }, readChar l2)
    else (newToken token.ASSIGN l.ch, readChar l)
  else if l.ch = '+' then (newToken token.PLUS l.ch, readChar l)
  else if l.ch = '-' then (newToken token.MINUS l.ch, readChar l)
  else if l.ch = '!' then
    if peekChar l = '=' then
      let c := l.ch
      let l2 := readChar l
      ({ type := token.NEQ, literal := String.mk [c, l2.ch] }, readChar l2)
    else (newToken token.BANG l.ch, readChar l)
  else if l.ch = '*' then (newToken token.ASTERISK l.ch, readChar l)
  else if l.ch = '/' then (newToken token.SLASH l.ch, readChar l)
  else if l.ch = '<' then (newToken token.LT l.ch, readChar l)
  else if l.ch = '>' then (newToken token.GT l.ch, readChar l)
  else if l.ch = ',' then (newToken token.COMMA l.ch, readChar l)
  else if l.ch = '\x7b' then (newToken token.LBRACE l.ch, readChar l)
  else if l.ch = '(' then (newToken token.LPAREN l.ch, readChar l)
  else if l.ch = '\x7d' then (newToken token.RBRACE l.ch, readChar l)
  else if l.ch = ')' then (newToken token.RPAREN l.ch, readChar l)
  else if l.ch = ';' then (newToken token.SEMICOLON l.ch, readChar l)
  else if l.ch = nulChar then ({ type := token.EOF, literal := "" }, readChar l)
  else if isLetter l.ch then
    let r := readIdentifier l
    ({ type := token.LookupIdent r.1, literal := r.1 }, r.2)
  else if isDigit l.ch then
    let r := readNumber l
    ({ type := token.INT, literal := r.1 }, r.2)
  else (newToken token.ILLEGAL l.ch, readChar l)

/-- The remaining-input view of one `NextToken` call after the whitespace
skip: the same case analysis as `nextTokenAt`, phrased on the not-yet-consumed
characters instead of the cursor.  `nextTokenAt_sim` proves the two agree on
every state satisfying `LexInv`. -/
def lexNextCore (cs1 : List Char) : Token × List Char :=
  match cs1 with
  | [] => ({ type := token.EOF, literal := "" }, [])
  | c :: rest =>
    if c = '=' then
      match rest with
      | d :: rest2 =>
        if d = '=' then ({ type := token.EQ, literal := String.mk [c, d] }, rest2)
        else (newToken token.ASSIGN c, rest)
      | [] => (newToken token.ASSIGN c, [])
    else if c = '+' then (newToken token.PLUS c, rest)
    else if c = '-' then (newToken token.MINUS c, rest)
    else if c = '!' then
      match rest with
      | d :: rest2 =>
        if d = '=' then ({ type := token.NEQ, literal := String.mk [c, d] }, rest2)
        else (newToken token.BANG c, rest)
      | [] => (newToken token.BANG c, [])
    else if c = '*' then (newToken token.ASTERISK c, rest)
    else if c = '/' then (newToken token.SLASH c, rest)
    else if c = '<' then (newToken token.LT c, rest)
    else if c = '>' then (newToken token.GT c, rest)
    else if c = ',' then (newToken token.COMMA c, rest)
    else if c = '\x7b' then (newToken token.LBRACE c, rest)
    else if c = '(' then (newToken token.LPAREN c, rest)
    else if c = '\x7d' then (newToken token.RBRACE c, rest)
    else if c = ')' then (newToken token.RPAREN c, rest)
    else if c = ';' then (newToken token.SEMICOLON c, rest)
    else if c = nulChar then ({ type := token.EOF, literal := "" }, rest)
    else if isLetter c then
      let lit := String.mk ((c :: rest).takeWhile isLetter)
      ({ type := token.LookupIdent lit, literal := lit }, (c :: rest).dropWhile isLetter)
    else if isDigit c then
      let lit := String.mk ((c :: rest).takeWhile isDigit)
      ({ type := token.INT, literal := lit }, (c :: rest).dropWhile isDigit)
    else (newToken token.ILLEGAL c, rest)

/-- One `NextToken` call viewed on the remaining input: skip whitespace, then
`lexNextCore`. -/
def lexNext (cs0 : List Char) : Token × List Char :=
  lexNextCore (cs0.dropWhile isWs)

/-- Driving `lexNext` to the first EOF, with fuel mirroring `tokenizeFuel`. -/
def lexAllFuel : Nat → List Char → List Token
  | 0, _ => []
  | n + 1, cs =>
    let r := lexNext cs
    if r.1.type = token.EOF then [r.1] else r.1 :: lexAllFuel n r.2

/-- A literal text the scanner can put in an IDENT token: a nonempty run of
letters/underscores that the keyword table does not claim. -/
def IdentLit (s : String) : Prop :=
  s.data ≠ [] ∧ (∀ c ∈ s.data, isLetter c = true) ∧ token.LookupIdent s = token.IDENT

/-- What the scanner guarantees about any token it produces, keyed by kind. -/
def GoodTok (t : Token) : Prop :=
  (t.type = token.IDENT → IdentLit t.literal) ∧
  (t.type = token.LET → t.literal = "let") ∧
  (t.type = token.RETURN → t.literal = "return")

/-- All tokens the parser can still see are scanner-produced. -/
def StreamGood (p : Parser) : Prop :=
  GoodTok p.curToken ∧ GoodTok p.peekToken ∧ ∀ t ∈ p.ts, GoodTok t

/-- Whether a statement node is a let or a return statement. -/
def isLetOrReturn : Statement → Bool
  | .letStatement _ _ _ => true
  | .returnStatement _ _ => true
  | .expressionStatement _ _ => false

/-- The exact shape of every let/return statement a run of this parser on
scanner output can emit. -/
def LRStmt : Statement → Prop
  | .letStatement tok name value =>
      tok = ⟨token.LET, "let"⟩ ∧ value = none ∧
      ∃ n, name = some ⟨⟨token.IDENT, n⟩, n⟩ ∧ IdentLit n
  | .returnStatement tok rv => tok = ⟨token.RETURN, "return"⟩ ∧ rv = none
  | .expressionStatement _ _ => False

/-- The tokens of one rendered let/return statement. -/
def blockToks : Statement → List Token
  | .letStatement _ name _ =>
      [⟨token.LET, "let"⟩, ⟨token.IDENT, (name.map Identifier.value).getD ""⟩,
       ⟨token.ASSIGN, "="⟩, ⟨token.SEMICOLON, ";"⟩]
  | .returnStatement _ _ => [⟨token.RETURN, "return"⟩, ⟨token.SEMICOLON, ";"⟩]
  | .expressionStatement _ _ => []

/-- The characters of one rendered let/return statement. -/
def lrChars : Statement → List Char
  | .letStatement _ name _ => ("let " ++ (name.map Identifier.value).getD "" ++ " = ;").data
  | .returnStatement _ _ => "return ;".data
  | .expressionStatement _ _ => []

/-- The per-statement invariant of claim C9: a parsed `let` always carries a
binding name and never a value expression; a parsed `return` never carries a
value expression. -/
def minimalStmt : Statement → Prop
  | .letStatement _ name value => name ≠ none ∧ value = none
  | .returnStatement _ rv => rv = none
  | .expressionStatement _ _ => True

/-! ## Scanner loop equations and the cursor invariant -/

theorem readChar_input (l : Lexer) : (readChar l).input = l.input := rfl

theorem advanceWhile_input (p : Char → Bool) :
    ∀ (n : Nat) (l : Lexer), (advanceWhile p n l).input = l.input := by
  intro n
  induction n with
  | zero => intro l; rfl
  | succ n ih =>
    intro l
    show (if p l.ch then advanceWhile p n (readChar l) else l).input = l.input
    split
    · rw [ih (readChar l)]; rfl
    · rfl

theorem lexInv_readChar (l : Lexer) : LexInv (readChar l) := by
  refine ⟨rfl, ?_⟩
  show (if l.input.length ≤ l.readPosition then nulChar else l.input.getD l.readPosition nulChar)
      = if l.readPosition < l.input.length then l.input.getD l.readPosition nulChar else nulChar
  by_cases h : l.input.length ≤ l.readPosition
  · rw [if_pos h, if_neg (by omega)]
  · rw [if_neg h, if_pos (by omega)]

theorem lexInv_new (s : String) : LexInv (Lexer.new s) := lexInv_readChar _

theorem lexInv_advanceWhile (p : Char → Bool) :
    ∀ (n : Nat) (l : Lexer), LexInv l → LexInv (advanceWhile p n l) := by
  intro n
  induction n with
  | zero => intro l h; exact h
  | succ n ih =>
    intro l h
    show LexInv (if p l.ch then advanceWhile p n (readChar l) else l)
    split
    · exact ih _ (lexInv_readChar l)
    · exact h

theorem advanceWhile_stable (p : Char → Bool) (hp : p nulChar = false) :
    ∀ (n : Nat) (l : Lexer), l.input.length + 1 ≤ l.readPosition + n →
      advanceWhile p (n + 1) l = advanceWhile p (n + 2) l := by
  intro n
  induction n with
  | zero =>
    intro l h
    show (if p l.ch then advanceWhile p 0 (readChar l) else l)
        = if p l.ch then advanceWhile p 1 (readChar l) else l
    by_cases hc : p l.ch
    · rw [if_pos hc, if_pos hc]
      have hch : (readChar l).ch = nulChar := by
        show (if l.input.length ≤ l.readPosition then nulChar
              else l.input.getD l.readPosition nulChar) = nulChar
        rw [if_pos (by omega)]
      show readChar l
          = if p (readChar l).ch then advanceWhile p 0 (readChar (readChar l)) else readChar l
      rw [hch, hp]
      simp
    · rw [if_neg hc, if_neg hc]
  | succ n ih =>
    intro l h
    show (if p l.ch then advanceWhile p (n + 1) (readChar l) else l)
        = if p l.ch then advanceWhile p (n + 2) (readChar l) else l
    by_cases hc : p l.ch
    · rw [if_pos hc, if_pos hc]
      exact ih (readChar l) (by show l.input.length + 1 ≤ l.readPosition + 1 + n; omega)
    · rw [if_neg hc, if_neg hc]

theorem advanceWhile_loopFuel (p : Char → Bool) (hp : p nulChar = false) (l : Lexer) :
    advanceWhile p (loopFuel l) l =
      if p l.ch then advanceWhile p (loopFuel (readChar l)) (readChar l) else l := by
  show (if p l.ch then advanceWhile p (l.input.length + 1) (readChar l) else l) = _
  by_cases hc : p l.ch
  · rw [if_pos hc, if_pos hc]
    exact advanceWhile_stable p hp l.input.length (readChar l)
      (by show l.input.length + 1 ≤ l.readPosition + 1 + l.input.length; omega)
  · rw [if_neg hc, if_neg hc]

theorem skipWhitespace_eq (l : Lexer) :
    skipWhitespace l = if isWs l.ch then skipWhitespace (readChar l) else l :=
  advanceWhile_loopFuel isWs (by decide) l

theorem getD_drop (cs : List Char) (i : Nat) :
    cs.getD i nulChar = (cs.drop i).headD nulChar := by
  induction cs generalizing i with
  | nil => cases i <;> rfl
  | cons c rest ih =>
    cases i with
    | zero => rfl
    | succ j => exact ih j

theorem lexInv_ch_headD (l : Lexer) (h : LexInv l) :
    l.ch = (l.input.drop l.position).headD nulChar := by
  rcases h with ⟨-, h2⟩
  rw [h2]
  by_cases hlt : l.position < l.input.length
  · rw [if_pos hlt, getD_drop]
  · rw [if_neg hlt, List.drop_eq_nil_of_le (by omega)]
    rfl

theorem readChar_suffix (l : Lexer) (h : LexInv l) :
    (readChar l).input.drop (readChar l).position = (l.input.drop l.position).tail := by
  rcases h with ⟨h1, -⟩
  show l.input.drop l.readPosition = (l.input.drop l.position).tail
  rw [h1, List.tail_drop]

theorem peekChar_suffix (l : Lexer) (h : LexInv l) :
    peekChar l = (l.input.drop l.position).tail.headD nulChar := by
  rcases h with ⟨h1, -⟩
  show (if l.input.length ≤ l.readPosition then nulChar
        else l.input.getD l.readPosition nulChar) = _
  rw [h1, List.tail_drop]
  by_cases hlt : l.position + 1 < l.input.length
  · rw [if_neg (by omega), getD_drop]
  · rw [if_pos (by omega), List.drop_eq_nil_of_le (by omega)]
    rfl

theorem take_takeWhile (p : Char → Bool) (cs : List Char) :
    cs.take ((cs.takeWhile p).length) = cs.takeWhile p := by
  calc cs.take ((cs.takeWhile p).length)
      = (cs.takeWhile p ++ cs.dropWhile p).take ((cs.takeWhile p).length) := by
        rw [List.takeWhile_append_dropWhile]
    _ = cs.takeWhile p := List.take_left _ _

theorem advanceWhileRun_sim (p : Char → Bool) (hp : p nulChar = false) :
    ∀ (cs : List Char) (l : Lexer), LexInv l → l.input.drop l.position = cs →
      LexInv (advanceWhile p (loopFuel l) l) ∧
      (advanceWhile p (loopFuel l) l).input = l.input ∧
      (advanceWhile p (loopFuel l) l).position = l.position + (cs.takeWhile p).length ∧
      (advanceWhile p (loopFuel l) l).input.drop (advanceWhile p (loopFuel l) l).position
        = cs.dropWhile p := by
  intro cs
  induction cs with
  | nil =>
    intro l hInv hsuf
    have hch : l.ch = nulChar := by rw [lexInv_ch_headD l hInv, hsuf]; rfl
    have hstop : advanceWhile p (loopFuel l) l = l := by
      rw [advanceWhile_loopFuel p hp, hch, hp]; simp
    rw [hstop]
    exact ⟨hInv, rfl, by simp, by rw [hsuf]; rfl⟩
  | cons c rest ih =>
    intro l hInv hsuf
    have hch : l.ch = c := by rw [lexInv_ch_headD l hInv, hsuf]; rfl
    by_cases hpc : p c
    · have hstep : advanceWhile p (loopFuel l) l
          = advanceWhile p (loopFuel (readChar l)) (readChar l) := by
        rw [advanceWhile_loopFuel p hp, hch, hpc]; simp
      have hsuf2 : (readChar l).input.drop (readChar l).position = rest := by
        rw [readChar_suffix l hInv, hsuf]; rfl
      obtain ⟨i1, i2, i3, i4⟩ := ih (readChar l) (lexInv_readChar l) hsuf2
      rw [hstep]
      refine ⟨i1, by rw [i2]; rfl, ?_, ?_⟩
      · rw [i3]
        have hpos : (readChar l).position = l.position + 1 := by
          show l.readPosition = l.position + 1
          exact hInv.1
        rw [hpos, List.takeWhile_cons, if_pos hpc, List.length_cons]
        omega
      · rw [i4, List.dropWhile_cons, if_pos hpc]
    · have hstop : advanceWhile p (loopFuel l) l = l := by
        rw [advanceWhile_loopFuel p hp, hch]
        simp [hpc]
      rw [hstop]
      refine ⟨hInv, rfl, ?_, ?_⟩
      · rw [List.takeWhile_cons, if_neg hpc]; simp
      · rw [hsuf, List.dropWhile_cons, if_neg hpc]

theorem NextToken_eq_nextTokenAt (l : Lexer) : NextToken l = nextTokenAt (skipWhitespace l) := rfl

theorem nextTokenAt_nul (l : Lexer) (h : l.ch = nulChar) :
    nextTokenAt l = ({ type := token.EOF, literal := "" }, readChar l) := by
  simp [nextTokenAt, h, nulChar]

theorem nextTokenAt_sim (l : Lexer) (hInv : LexInv l) :
    (nextTokenAt l).1 = (lexNextCore (l.input.drop l.position)).1 ∧
    LexInv (nextTokenAt l).2 ∧
    (nextTokenAt l).2.input = l.input ∧
    (nextTokenAt l).2.input.drop (nextTokenAt l).2.position
      = (lexNextCore (l.input.drop l.position)).2 := by
  rcases hcs : l.input.drop l.position with _ | ⟨c, rest⟩
  · have hch : l.ch = nulChar := by rw [lexInv_ch_headD l hInv, hcs]; rfl
    rw [nextTokenAt_nul l hch]
    refine ⟨rfl, lexInv_readChar l, rfl, ?_⟩
    rw [readChar_suffix l hInv, hcs]
    rfl
  · have hch : l.ch = c := by rw [lexInv_ch_headD l hInv, hcs]; rfl
    have hpeek : peekChar l = rest.headD nulChar := by rw [peekChar_suffix l hInv, hcs]; rfl
    have hsufR : (readChar l).input.drop (readChar l).position = rest := by
      rw [readChar_suffix l hInv, hcs]; rfl
    have hsufR2 : l.input.drop (readChar l).position = rest := hsufR
    by_cases h1 : c = '='
    · subst h1
      rcases rest with _ | ⟨d, rest2⟩
      · have hpk : peekChar l = nulChar := by rw [hpeek]; rfl
        have hlen : l.input.length ≤ (readChar l).position := by
          have hc := congrArg List.length hsufR2
          simp [List.length_drop] at hc
          omega
        refine ⟨?_, ?_, ?_, ?_⟩ <;>
          simp [nextTokenAt, lexNextCore, hch, hpk, hsufR, hsufR2, hlen, lexInv_readChar,
            readChar_input, nulChar]
      · have hpk : peekChar l = d := by rw [hpeek]; rfl
        by_cases h2 : d = '='
        · subst h2
          have hch2 : (readChar l).ch = '=' := by
            rw [lexInv_ch_headD (readChar l) (lexInv_readChar l), hsufR]; rfl
          have hsufRR :
              (readChar (readChar l)).input.drop (readChar (readChar l)).position = rest2 := by
            rw [readChar_suffix (readChar l) (lexInv_readChar l), hsufR]; rfl
          have hsufRR2 : l.input.drop (readChar (readChar l)).position = rest2 := hsufRR
          refine ⟨?_, ?_, ?_, ?_⟩ <;>
            simp [nextTokenAt, lexNextCore, hch, hpk, hch2, hsufRR, hsufRR2, lexInv_readChar,
              readChar_input]
        · refine ⟨?_, ?_, ?_, ?_⟩ <;>
            simp [nextTokenAt, lexNextCore, hch, hpk, h2, hsufR, hsufR2, lexInv_readChar,
              readChar_input]
    by_cases h2 : c = '+'
    · subst h2
      refine ⟨?_, ?_, ?_, ?_⟩ <;>
        simp [nextTokenAt, lexNextCore, hch, hsufR, hsufR2, lexInv_readChar, readChar_input]
    by_cases h3 : c = '-'
    · subst h3
      refine ⟨?_, ?_, ?_, ?_⟩ <;>
        simp [nextTokenAt, lexNextCore, hch, hsufR, hsufR2, lexInv_readChar, readChar_input]
    by_cases h4 : c = '!'
    · subst h4
      rcases rest with _ | ⟨d, rest2⟩
      · have hpk : peekChar l = nulChar := by rw [hpeek]; rfl
        have hlen : l.input.length ≤ (readChar l).position := by
          have hc := congrArg List.length hsufR2
          simp [List.length_drop] at hc
          omega
        refine ⟨?_, ?_, ?_, ?_⟩ <;>
          simp [nextTokenAt, lexNextCore, hch, hpk, hsufR, hsufR2, hlen, lexInv_readChar,
            readChar_input, nulChar]
      · have hpk : peekChar l = d := by rw [hpeek]; rfl
        by_cases h5 : d = '='
        · subst h5
          have hch2 : (readChar l).ch = '=' := by
            rw [lexInv_ch_headD (readChar l) (lexInv_readChar l), hsufR]; rfl
          have hsufRR :
              (readChar (readChar l)).input.drop (readChar (readChar l)).position = rest2 := by
            rw [readChar_suffix (readChar l) (lexInv_readChar l), hsufR]; rfl
          have hsufRR2 : l.input.drop (readChar (readChar l)).position = rest2 := hsufRR
          refine ⟨?_, ?_, ?_, ?_⟩ <;>
            simp [nextTokenAt, lexNextCore, hch, hpk, hch2, hsufRR, hsufRR2, lexInv_readChar,
              readChar_input]
        · refine ⟨?_, ?_, ?_, ?_⟩ <;>
            simp [nextTokenAt, lexNextCore, hch, hpk, h5, hsufR, hsufR2, lexInv_readChar,
              readChar_input]
    by_cases h5 : c = '*'
    · subst h5
      refine ⟨?_, ?_, ?_, ?_⟩ <;>
        simp [nextTokenAt, lexNextCore, hch, hsufR, hsufR2, lexInv_readChar, readChar_input]
    by_cases h6 : c = '/'
    · subst h6
      refine ⟨?_, ?_, ?_, ?_⟩ <;>
        simp [nextTokenAt, lexNextCore, hch, hsufR, hsufR2, lexInv_readChar, readChar_input]
    by_cases h7 : c = '<'
    · subst h7
      refine ⟨?_, ?_, ?_, ?_⟩ <;>
        simp [nextTokenAt, lexNextCore, hch, hsufR, hsufR2, lexInv_readChar, readChar_input]
    by_cases h8 : c = '>'
    · subst h8
      refine ⟨?_, ?_, ?_, ?_⟩ <;>
        simp [nextTokenAt, lexNextCore, hch, hsufR, hsufR2, lexInv_readChar, readChar_input]
    by_cases h9 : c = ','
    · subst h9
      refine ⟨?_, ?_, ?_, ?_⟩ <;>
        simp [nextTokenAt, lexNextCore, hch, hsufR, hsufR2, lexInv_readChar, readChar_input]
    by_cases h10 : c = '\x7b'
    · subst h10
      refine ⟨?_, ?_, ?_, ?_⟩ <;>
        simp [nextTokenAt, lexNextCore, hch, hsufR, hsufR2, lexInv_readChar, readChar_input]
    by_cases h11 : c = '('
    · subst h11
      refine ⟨?_, ?_, ?_, ?_⟩ <;>
        simp [nextTokenAt, lexNextCore, hch, hsufR, hsufR2, lexInv_readChar, readChar_input]
    by_cases h12 : c = '\x7d'
    · subst h12
      refine ⟨?_, ?_, ?_, ?_⟩ <;>
        simp [nextTokenAt, lexNextCore, hch, hsufR, hsufR2, lexInv_readChar, readChar_input]
    by_cases h13 : c = ')'
    · subst h13
      refine ⟨?_, ?_, ?_, ?_⟩ <;>
        simp [nextTokenAt, lexNextCore, hch, hsufR, hsufR2, lexInv_readChar, readChar_input]
    by_cases h14 : c = ';'
    · subst h14
      refine ⟨?_, ?_, ?_, ?_⟩ <;>
        simp [nextTokenAt, lexNextCore, hch, hsufR, hsufR2, lexInv_readChar, readChar_input]
    by_cases h15 : c = nulChar
    · subst h15
      refine ⟨?_, ?_, ?_, ?_⟩ <;>
        simp [nextTokenAt, lexNextCore, hch, hsufR, hsufR2, lexInv_readChar, readChar_input, nulChar]
    by_cases h16 : isLetter c
    · obtain ⟨a1, a2, a3, a4⟩ := advanceWhileRun_sim isLetter (by decide) (c :: rest) l hInv hcs
      have hslice : (readIdentifier l).1 = String.mk ((c :: rest).takeWhile isLetter) := by
        show String.mk ((l.input.drop l.position).take
            ((advanceWhile isLetter (loopFuel l) l).position - l.position)) = _
        rw [a3, hcs]
        congr 1
        have hk : l.position + ((c :: rest).takeWhile isLetter).length - l.position
            = ((c :: rest).takeWhile isLetter).length := by omega
        rw [hk, take_takeWhile]
      have hbr : nextTokenAt l
          = ({ type := token.LookupIdent (readIdentifier l).1,
               literal := (readIdentifier l).1 }, (readIdentifier l).2) := by
        simp only [nextTokenAt, hch, h1, h2, h3, h4, h5, h6, h7, h8, h9, h10, h11, h12, h13,
          h14, h15, h16, ite_false, ite_true, if_false, if_true, Bool.false_eq_true]
      have hlist : lexNextCore (c :: rest)
          = ({ type := token.LookupIdent (String.mk ((c :: rest).takeWhile isLetter)),
               literal := String.mk ((c :: rest).takeWhile isLetter) },
             (c :: rest).dropWhile isLetter) := by
        simp only [lexNextCore, h1, h2, h3, h4, h5, h6, h7, h8, h9, h10, h11, h12, h13,
          h14, h15, h16, ite_false, ite_true, if_false, if_true, Bool.false_eq_true]
      rw [hbr, hlist, hslice]
      exact ⟨rfl, a1, a2, a4⟩
    by_cases h17 : isDigit c
    · obtain ⟨a1, a2, a3, a4⟩ := advanceWhileRun_sim isDigit (by decide) (c :: rest) l hInv hcs
      have hslice : (readNumber l).1 = String.mk ((c :: rest).takeWhile isDigit) := by
        show String.mk ((l.input.drop l.position).take
            ((advanceWhile isDigit (loopFuel l) l).position - l.position)) = _
        rw [a3, hcs]
        congr 1
        have hk : l.position + ((c :: rest).takeWhile isDigit).length - l.position
            = ((c :: rest).takeWhile isDigit).length := by omega
        rw [hk, take_takeWhile]
      have hbr : nextTokenAt l
          = ({ type := token.INT, literal := (readNumber l).1 }, (readNumber l).2) := by
        simp only [nextTokenAt, hch, h1, h2, h3, h4, h5, h6, h7, h8, h9, h10, h11, h12, h13,
          h14, h15, h16, h17, ite_false, ite_true, if_false, if_true, Bool.false_eq_true]
      have hlist : lexNextCore (c :: rest)
          = ({ type := token.INT, literal := String.mk ((c :: rest).takeWhile isDigit) },
             (c :: rest).dropWhile isDigit) := by
        simp only [lexNextCore, h1, h2, h3, h4, h5, h6, h7, h8, h9, h10, h11, h12, h13,
          h14, h15, h16, h17, ite_false, ite_true, if_false, if_true, Bool.false_eq_true]
      rw [hbr, hlist, hslice]
      exact ⟨rfl, a1, a2, a4⟩
    refine ⟨?_, ?_, ?_, ?_⟩ <;>
      simp [nextTokenAt, lexNextCore, hch, h1, h2, h3, h4, h5, h6, h7, h8, h9, h10, h11,
        h12, h13, h14, h15, h16, h17, hsufR, hsufR2, lexInv_readChar, readChar_input]

theorem NextToken_sim (l : Lexer) (hInv : LexInv l) :
    (NextToken l).1 = (lexNext (l.input.drop l.position)).1 ∧
    LexInv (NextToken l).2 ∧
    (NextToken l).2.input = l.input ∧
    (NextToken l).2.input.drop (NextToken l).2.position
      = (lexNext (l.input.drop l.position)).2 := by
  obtain ⟨w1, w2, w3, w4⟩ :=
    advanceWhileRun_sim isWs (by decide) (l.input.drop l.position) l hInv rfl
  have hInv1 : LexInv (skipWhitespace l) := w1
  have hinp1 : (skipWhitespace l).input = l.input := w2
  have hsuf1 : (skipWhitespace l).input.drop (skipWhitespace l).position
      = (l.input.drop l.position).dropWhile isWs := w4
  obtain ⟨s1, s2, s3, s4⟩ := nextTokenAt_sim (skipWhitespace l) hInv1
  rw [NextToken_eq_nextTokenAt]
  refine ⟨?_, s2, by rw [s3, hinp1], ?_⟩
  · rw [s1, hsuf1]; rfl
  · rw [s4, hsuf1]; rfl

theorem tokenizeFuel_sim : ∀ (n : Nat) (l : Lexer), LexInv l →
    tokenizeFuel n l = lexAllFuel n (l.input.drop l.position) := by
  intro n
  induction n with
  | zero => intro l _; rfl
  | succ n ih =>
    intro l h
    obtain ⟨t1, t2, t3, t4⟩ := NextToken_sim l h
    show (if (NextToken l).1.type = token.EOF then [(NextToken l).1]
          else (NextToken l).1 :: tokenizeFuel n (NextToken l).2)
        = (if (lexNext (l.input.drop l.position)).1.type = token.EOF
           then [(lexNext (l.input.drop l.position)).1]
           else (lexNext (l.input.drop l.position)).1
             :: lexAllFuel n (lexNext (l.input.drop l.position)).2)
    rw [t1]
    by_cases he : (lexNext (l.input.drop l.position)).1.type = token.EOF
    · rw [if_pos he, if_pos he]
    · rw [if_neg he, if_neg he, ih (NextToken l).2 t2, t4]

theorem tokenize_eq_lexAll (s : String) :
    tokenize s = lexAllFuel (s.data.length + 1) s.data := by
  have h := tokenizeFuel_sim (s.data.length + 1) (Lexer.new s) (lexInv_new s)
  rw [tokenize, h]
  rfl

theorem LookupIdent_LET (s : String) (h : token.LookupIdent s = token.LET) : s = "let" := by
  unfold token.LookupIdent at h
  split_ifs at h <;> first | (exact absurd h (by decide)) | assumption

theorem LookupIdent_RETURN (s : String) (h : token.LookupIdent s = token.RETURN) :
    s = "return" := by
  unfold token.LookupIdent at h
  split_ifs at h <;> first | (exact absurd h (by decide)) | assumption

theorem goodTok_of_ne (t : Token) (h1 : t.type ≠ token.IDENT) (h2 : t.type ≠ token.LET)
    (h3 : t.type ≠ token.RETURN) : GoodTok t :=
  ⟨fun h => absurd h h1, fun h => absurd h h2, fun h => absurd h h3⟩

theorem goodTok_of_type (ty : TokenType) (lit : String) (h1 : ty ≠ token.IDENT)
    (h2 : ty ≠ token.LET) (h3 : ty ≠ token.RETURN) : GoodTok ⟨ty, lit⟩ :=
  ⟨fun h => absurd h h1, fun h => absurd h h2, fun h => absurd h h3⟩

theorem goodTok_lookup (lit : String) (hne : lit.data ≠ [])
    (hall : ∀ x ∈ lit.data, isLetter x = true) :
    GoodTok ⟨token.LookupIdent lit, lit⟩ :=
  ⟨fun h => ⟨hne, hall, h⟩, fun h => LookupIdent_LET lit h, fun h => LookupIdent_RETURN lit h⟩

theorem lexNextCore_good (cs : List Char) : GoodTok (lexNextCore cs).1 := by
  have hne := fun (t : Token) (a : t.type ≠ token.IDENT) (b : t.type ≠ token.LET)
    (c : t.type ≠ token.RETURN) => goodTok_of_ne t a b c
  rcases cs with _ | ⟨c, rest⟩
  · exact goodTok_of_type token.EOF _ (by decide) (by decide) (by decide)
  by_cases h1 : c = '='
  · subst h1
    rcases rest with _ | ⟨d, rest2⟩
    · exact goodTok_of_type token.ASSIGN _ (by decide) (by decide) (by decide)
    by_cases h2 : d = '='
    · subst h2
      exact goodTok_of_type token.EQ _ (by decide) (by decide) (by decide)
    · have hstep : lexNextCore ('=' :: d :: rest2) = (newToken token.ASSIGN '=', d :: rest2) := by
        simp [lexNextCore, h2]
      rw [hstep]
      exact goodTok_of_type token.ASSIGN _ (by decide) (by decide) (by decide)
  by_cases h2 : c = '+'
  · subst h2; exact goodTok_of_type token.PLUS _ (by decide) (by decide) (by decide)
  by_cases h3 : c = '-'
  · subst h3; exact goodTok_of_type token.MINUS _ (by decide) (by decide) (by decide)
  by_cases h4 : c = '!'
  · subst h4
    rcases rest with _ | ⟨d, rest2⟩
    · exact goodTok_of_type token.BANG _ (by decide) (by decide) (by decide)
    by_cases h5 : d = '='
    · subst h5
      exact goodTok_of_type token.NEQ _ (by decide) (by decide) (by decide)
    · have hstep : lexNextCore ('!' :: d :: rest2) = (newToken token.BANG '!', d :: rest2) := by
        simp [lexNextCore, h5]
      rw [hstep]
      exact goodTok_of_type token.BANG _ (by decide) (by decide) (by decide)
  by_cases h5 : c = '*'
  · subst h5; exact goodTok_of_type token.ASTERISK _ (by decide) (by decide) (by decide)
  by_cases h6 : c = '/'
  · subst h6; exact goodTok_of_type token.SLASH _ (by decide) (by decide) (by decide)
  by_cases h7 : c = '<'
  · subst h7; exact goodTok_of_type token.LT _ (by decide) (by decide) (by decide)
  by_cases h8 : c = '>'
  · subst h8; exact goodTok_of_type token.GT _ (by decide) (by decide) (by decide)
  by_cases h9 : c = ','
  · subst h9; exact goodTok_of_type token.COMMA _ (by decide) (by decide) (by decide)
  by_cases h10 : c = '\x7b'
  · subst h10; exact goodTok_of_type token.LBRACE _ (by decide) (by decide) (by decide)
  by_cases h11 : c = '('
  · subst h11; exact goodTok_of_type token.LPAREN _ (by decide) (by decide) (by decide)
  by_cases h12 : c = '\x7d'
  · subst h12; exact goodTok_of_type token.RBRACE _ (by decide) (by decide) (by decide)
  by_cases h13 : c = ')'
  · subst h13; exact goodTok_of_type token.RPAREN _ (by decide) (by decide) (by decide)
  by_cases h14 : c = ';'
  · subst h14; exact goodTok_of_type token.SEMICOLON _ (by decide) (by decide) (by decide)
  by_cases h15 : c = nulChar
  · subst h15; exact goodTok_of_type token.EOF _ (by decide) (by decide) (by decide)
  by_cases h16 : isLetter c
  · have hstep : lexNextCore (c :: rest)
        = ({ type := token.LookupIdent (String.mk ((c :: rest).takeWhile isLetter)),
             literal := String.mk ((c :: rest).takeWhile isLetter) },
           (c :: rest).dropWhile isLetter) := by
      simp only [lexNextCore, h1, h2, h3, h4, h5, h6, h7, h8, h9, h10, h11, h12, h13, h14,
        h15, h16, ite_false, ite_true, if_false, if_true, Bool.false_eq_true]
    rw [hstep]
    exact goodTok_lookup _ (by simp [List.takeWhile_cons, h16])
      (fun x hx => List.mem_takeWhile_imp hx)
  by_cases h17 : isDigit c
  · have hstep : lexNextCore (c :: rest)
        = ({ type := token.INT, literal := String.mk ((c :: rest).takeWhile isDigit) },
           (c :: rest).dropWhile isDigit) := by
      simp only [lexNextCore, h1, h2, h3, h4, h5, h6, h7, h8, h9, h10, h11, h12, h13, h14,
        h15, h16, h17, ite_false, ite_true, if_false, if_true, Bool.false_eq_true]
    rw [hstep]
    exact goodTok_of_type token.INT _ (by decide) (by decide) (by decide)
  · have hstep : lexNextCore (c :: rest) = (newToken token.ILLEGAL c, rest) := by
      simp only [lexNextCore, h1, h2, h3, h4, h5, h6, h7, h8, h9, h10, h11, h12, h13, h14,
        h15, h16, h17, ite_false, ite_true, if_false, if_true, Bool.false_eq_true]
    rw [hstep]
    exact goodTok_of_type token.ILLEGAL _ (by decide) (by decide) (by decide)

theorem lexAllFuel_good : ∀ (n : Nat) (cs : List Char), ∀ t ∈ lexAllFuel n cs, GoodTok t := by
  intro n
  induction n with
  | zero => intro cs t ht; cases ht
  | succ n ih =>
    intro cs t ht
    have hstep : lexAllFuel (n + 1) cs
        = if (lexNext cs).1.type = token.EOF then [(lexNext cs).1]
          else (lexNext cs).1 :: lexAllFuel n (lexNext cs).2 := rfl
    rw [hstep] at ht
    have hgood : GoodTok (lexNext cs).1 := lexNextCore_good _
    by_cases he : (lexNext cs).1.type = token.EOF
    · rw [if_pos he] at ht
      rcases List.mem_singleton.mp ht with rfl
      exact hgood
    · rw [if_neg he] at ht
      rcases List.mem_cons.mp ht with rfl | hmem
      · exact hgood
      · exact ih _ t hmem

theorem tokenize_good (s : String) : ∀ t ∈ tokenize s, GoodTok t := by
  rw [tokenize_eq_lexAll]
  exact lexAllFuel_good _ _

/-! ## Claim C8: the chapter-1 operator/delimiter token sequence -/

/-- C8: tokenizing the sixteen-character chapter-1 operator/delimiter input
(equals, plus, parens, braces, comma, semicolon, bang, asterisk, minus, slash,
less, greater, equals-equals) yields exactly the fifteen tokens ASSIGN, PLUS,
LPAREN, RPAREN, LBRACE, RBRACE, COMMA, SEMICOLON, BANG, ASTERISK, MINUS,
SLASH, LT, GT, EQ in that order followed by EOF: the `=` before the final `=`
merges into one `==` token, and `!` not followed by `=` stays a
single-character token. -/
theorem tokenize_chapter1_sequence :
    tokenize "=+()\x7b\x7d,;!*-/<>==" =
      [⟨token.ASSIGN, "="⟩, ⟨token.PLUS, "+"⟩, ⟨token.LPAREN, "("⟩, ⟨token.RPAREN, ")"⟩,
       ⟨token.LBRACE, "\x7b"⟩, ⟨token.RBRACE, "\x7d"⟩, ⟨token.COMMA, ","⟩,
       ⟨token.SEMICOLON, ";"⟩, ⟨token.BANG, "!"⟩, ⟨token.ASTERISK, "*"⟩, ⟨token.MINUS, "-"⟩,
       ⟨token.SLASH, "/"⟩, ⟨token.LT, "<"⟩, ⟨token.GT, ">"⟩, ⟨token.EQ, "=="⟩,
       ⟨token.EOF, ""⟩] := by
  decide

/-! ## Claim C3: precedence and associativity of the Pratt engine -/

/-- C3: `"-a * b"` parses and renders as `"((-a) * b)"`, `"a + b + c"` as
`"((a + b) + c)"`, `"a + b * c"` as `"(a + (b * c))"`, and `"a * b / c"` as
`"((a * b) / c)"`: same-precedence infix operators associate left and
higher-precedence operators bind tighter. -/
theorem pratt_precedence_renders :
    (parseFuel 50 "-a * b").map (fun r => (renderProgram r.1, r.2))
      = some (some "((-a) * b)", []) ∧
    (parseFuel 50 "a + b + c").map (fun r => (renderProgram r.1, r.2))
      = some (some "((a + b) + c)", []) ∧
    (parseFuel 50 "a + b * c").map (fun r => (renderProgram r.1, r.2))
      = some (some "(a + (b * c))", []) ∧
    (parseFuel 50 "a * b / c").map (fun r => (renderProgram r.1, r.2))
      = some (some "((a * b) / c)", []) := by
  refine ⟨by decide, by decide, by decide, by decide⟩

/-! ## Claim C7: scanner behaviour at end of input -/

theorem nextToken_end_step (l : Lexer) (hInv : LexInv l)
    (hEnd : l.input.length ≤ l.position) :
    NextToken l = ({ type := token.EOF, literal := "" }, readChar l) ∧
    LexInv (readChar l) ∧ (readChar l).input = l.input ∧
    l.input.length ≤ (readChar l).position ∧ (readChar l).position = l.position + 1 := by
  obtain ⟨h1, h2⟩ := hInv
  have hch : l.ch = nulChar := by
    rw [h2, if_neg (by omega)]
  have hskip : skipWhitespace l = l := by
    rw [skipWhitespace_eq, hch, show isWs nulChar = false from by decide]
    simp
  have hrw : NextToken l = nextTokenAt l := by rw [NextToken_eq_nextTokenAt, hskip]
  rw [hrw, nextTokenAt_nul l hch]
  refine ⟨rfl, lexInv_readChar l, rfl, ?_, ?_⟩
  · show l.input.length ≤ l.readPosition
    omega
  · show l.readPosition = l.position + 1
    exact h1

/-- C7 as stated is false at the concrete input `""`: the first `NextToken`
call does emit an EOF token with empty literal, but the cursor still advances
(the `case 0` branch falls through to `readChar`, so `position` goes from 0 to
1 and keeps growing on every later call). -/
theorem nextToken_end_advances_cex :
    (NextToken (Lexer.new "")).1 = { type := token.EOF, literal := "" } ∧
    (Lexer.new "").position = 0 ∧ (NextToken (Lexer.new "")).2.position = 1 := by
  decide

theorem lexSteps_succ_right :
    ∀ (k : Nat) (l : Lexer), lexSteps (k + 1) l = (NextToken (lexSteps k l)).2 := by
  intro k
  induction k with
  | zero => intro l; rfl
  | succ k ih =>
    intro l
    show lexSteps (k + 1) (NextToken l).2 = _
    rw [ih (NextToken l).2]
    rfl

/-- C7 amended: once the cursor is at or past the end of the input, every
subsequent `NextToken` call returns an EOF token with empty literal and never
reads past the input again — but, contrary to the claim's "does not advance
further", each call still increments `position` by exactly one. -/
theorem nextToken_end_eof_forever (l : Lexer) (hInv : LexInv l)
    (hEnd : l.input.length ≤ l.position) :
    (∀ k : Nat, (NextToken (lexSteps k l)).1 = { type := token.EOF, literal := "" }) ∧
    (∀ k : Nat, (lexSteps (k + 1) l).position = (lexSteps k l).position + 1) := by
  have hmain : ∀ (k : Nat) (l : Lexer), LexInv l → l.input.length ≤ l.position →
      (LexInv (lexSteps k l) ∧ (lexSteps k l).input = l.input ∧
        (lexSteps k l).input.length ≤ (lexSteps k l).position) := by
    intro k
    induction k with
    | zero => intro l h1 h2; exact ⟨h1, rfl, h2⟩
    | succ k ih =>
      intro l h1 h2
      obtain ⟨e1, e2, e3, e4, e5⟩ := nextToken_end_step l h1 h2
      have hs : (NextToken l).2 = readChar l := by rw [e1]
      show LexInv (lexSteps k (NextToken l).2) ∧
        (lexSteps k (NextToken l).2).input = l.input ∧
        (lexSteps k (NextToken l).2).input.length ≤ (lexSteps k (NextToken l).2).position
      rw [hs]
      obtain ⟨r1, r2, r3⟩ := ih (readChar l) e2 (by
        have he : (readChar l).input = l.input := e3
        rw [he]
        exact e4)
      exact ⟨r1, by rw [r2]; exact e3, r3⟩
  constructor
  · intro k
    obtain ⟨r1, r2, r3⟩ := hmain k l hInv hEnd
    obtain ⟨e1, -, -, -, -⟩ := nextToken_end_step _ r1 r3
    rw [e1]
  · intro k
    obtain ⟨r1, r2, r3⟩ := hmain k l hInv hEnd
    obtain ⟨e1, -, -, -, e5⟩ := nextToken_end_step _ r1 r3
    rw [lexSteps_succ_right, e1]
    exact e5

/-- Witness for C7's amended theorem at the empty input. -/
theorem nextToken_end_eof_forever_witness :
    (NextToken (lexSteps 3 (Lexer.new ""))).1 = { type := token.EOF, literal := "" } ∧
    (lexSteps 4 (Lexer.new "")).position = (lexSteps 3 (Lexer.new "")).position + 1 :=
  ⟨(nextToken_end_eof_forever (Lexer.new "") (lexInv_new "") (by decide)).1 3,
   (nextToken_end_eof_forever (Lexer.new "") (lexInv_new "") (by decide)).2 3⟩

/-! ## Claim C10: the cursor invariant -/

/-- C10: after construction and after every `NextToken` call, `readPosition`
equals `position + 1` and the current character `ch` equals
`input[position]` when `position < |input|` and the sentinel 0 otherwise; the
input itself is never modified. -/
theorem lexer_cursor_invariant :
    (∀ s : String, LexInv (Lexer.new s) ∧ (Lexer.new s).input = s.data) ∧
    (∀ l : Lexer, LexInv l →
      LexInv (NextToken l).2 ∧ (NextToken l).2.input = l.input) ∧
    (∀ (s : String) (k : Nat), LexInv (lexSteps k (Lexer.new s)) ∧
      (lexSteps k (Lexer.new s)).input = s.data) := by
  have hstep : ∀ l : Lexer, LexInv l →
      LexInv (NextToken l).2 ∧ (NextToken l).2.input = l.input := by
    intro l h
    obtain ⟨-, t2, t3, -⟩ := NextToken_sim l h
    exact ⟨t2, t3⟩
  have hiter : ∀ (k : Nat) (l : Lexer), LexInv l →
      LexInv (lexSteps k l) ∧ (lexSteps k l).input = l.input := by
    intro k
    induction k with
    | zero => intro l h; exact ⟨h, rfl⟩
    | succ k ih =>
      intro l h
      obtain ⟨s1, s2⟩ := hstep l h
      obtain ⟨r1, r2⟩ := ih (NextToken l).2 s1
      refine ⟨r1, ?_⟩
      show (lexSteps k (NextToken l).2).input = l.input
      rw [r2, s2]
  exact ⟨fun s => ⟨lexInv_new s, rfl⟩, hstep,
    fun s k => (hiter k (Lexer.new s) (lexInv_new s)).imp id (fun h => h)⟩

/-- Witness for C10's step conjunct at a concrete scanner state. -/
theorem lexer_cursor_invariant_witness :
    LexInv (NextToken (Lexer.new "ab")).2 ∧
    (NextToken (Lexer.new "ab")).2.input = (Lexer.new "ab").input :=
  lexer_cursor_invariant.2.1 (Lexer.new "ab") (lexInv_new "ab")

/-! ## Claim C5: integer-literal conversion -/

/-- C5: for every INT token, the integer-literal prefix rule converts the
literal with `strconv.ParseInt(lit, 0, 64)` (base inferred from the text,
result bounded to a signed 64-bit integer); exactly when that conversion
fails it appends the diagnostic `could not parse "<literal>" as integer` and
returns no expression, and otherwise it returns an IntegerLiteral node
carrying the converted value and leaves the diagnostics untouched.  The last
conjunct pins the modelled conversion on concrete literals: plain decimal, a
leading-zero octal literal, the out-of-octal-range `09`, and the two sides of
the 64-bit bound. -/
theorem parseIntegerLiteral_spec (p : Parser) (_hInt : p.curToken.type = token.INT) :
    (∀ v : Int, goParseInt p.curToken.literal = some v →
      parseIntegerLiteral p = (some (.integerLiteral p.curToken v), p)) ∧
    (goParseInt p.curToken.literal = none →
      parseIntegerLiteral p = (none, { p with errors := p.errors
        ++ ["could not parse \"" ++ p.curToken.literal ++ "\" as integer"] })) ∧
    (goParseInt "5" = some 5 ∧ goParseInt "0755" = some 493 ∧ goParseInt "09" = none ∧
      goParseInt "9223372036854775807" = some 9223372036854775807 ∧
      goParseInt "9223372036854775808" = none) := by
  refine ⟨?_, ?_, by decide, by decide, by decide, by decide, by decide⟩
  · intro v hv
    simp [parseIntegerLiteral, hv]
  · intro hv
    simp [parseIntegerLiteral, hv]

/-- Witness for C5 at a concrete parser state holding the INT token `5`. -/
theorem parseIntegerLiteral_spec_witness :
    parseIntegerLiteral ⟨[], ⟨token.INT, "5"⟩, ⟨token.EOF, ""⟩, []⟩
      = (some (.integerLiteral ⟨token.INT, "5"⟩ 5), ⟨[], ⟨token.INT, "5"⟩, ⟨token.EOF, ""⟩, []⟩) :=
  (parseIntegerLiteral_spec ⟨[], ⟨token.INT, "5"⟩, ⟨token.EOF, ""⟩, []⟩ rfl).1 5 (by decide)

/-! ## Claim C4: tokens with no registered prefix rule -/

/-- C4 as stated is false at the claim's own example `"!true"`: TRUE has no
prefix rule and exactly one diagnostic is recorded, but the statement is NOT
left without an expression — it holds a PrefixExpression whose operand is
absent. -/
theorem noPrefixRule_bang_true_cex :
    parseFuel 50 "!true"
      = some ({ statements := [.expressionStatement ⟨token.BANG, "!"⟩
                  (some (.prefixExpression ⟨token.BANG, "!"⟩ "!" none))] },
              ["no prefix parse function for TRUE found"]) ∧
    some (Expression.prefixExpression ⟨token.BANG, "!"⟩ "!" none) ≠ none := by
  exact ⟨rfl, by simp⟩

/-- C4 amended: when the token with no registered prefix rule is the first
token of a statement's expression, `parseExpression` yields no expression and
appends exactly one diagnostic `no prefix parse function for <kind> found`
(shown for `"true"` end to end); when such a token appears as the operand of
a prefix operator, as in `"!true"`, the same single diagnostic is recorded
but the statement holds a prefix-expression node with an absent operand. -/
theorem noPrefixRule_spec :
    (∀ (fuel precedence : Nat) (p : Parser), hasPrefixFn p.curToken.type = false →
      parseExpression (fuel + 1) precedence p
        = some (none, { p with errors := p.errors
            ++ ["no prefix parse function for " ++ p.curToken.type ++ " found"] })) ∧
    parseFuel 50 "true"
      = some ({ statements := [.expressionStatement ⟨token.TRUE, "true"⟩ none] },
              ["no prefix parse function for TRUE found"]) ∧
    parseFuel 50 "!true"
      = some ({ statements := [.expressionStatement ⟨token.BANG, "!"⟩
                  (some (.prefixExpression ⟨token.BANG, "!"⟩ "!" none))] },
              ["no prefix parse function for TRUE found"]) := by
  refine ⟨?_, rfl, rfl⟩
  intro fuel precedence p h
  simp only [hasPrefixFn, Bool.or_eq_false_iff, decide_eq_false_iff_not] at h
  obtain ⟨⟨⟨n1, n2⟩, n3⟩, n4⟩ := h
  simp [parseExpression, n1, n2, n3, n4, noPrefixParseFnError]

/-- Witness for C4's amended theorem at a concrete parser state holding a
TRUE token. -/
theorem noPrefixRule_spec_witness :
    parseExpression 1 1 ⟨[], ⟨token.TRUE, "true"⟩, ⟨token.EOF, ""⟩, []⟩
      = some (none, ⟨[], ⟨token.TRUE, "true"⟩, ⟨token.EOF, ""⟩,
          ["no prefix parse function for TRUE found"]⟩) :=
  noPrefixRule_spec.1 0 1 ⟨[], ⟨token.TRUE, "true"⟩, ⟨token.EOF, ""⟩, []⟩ (by decide)

/-! ## Claim C6: malformed let statements -/

/-- C6: a `let` whose next token is not an identifier (respectively whose
token after the binding name is not `=`) records the diagnostic
`expected next token to be IDENT, got X instead` (respectively with `=` as
the expected kind), produces no node, and the overall parse continues with
the following statements, accumulating diagnostics in encounter order — shown
end to end on `"let = 5; let x = 6;"`, whose malformed first statement is
omitted while the second `let` still parses. -/
theorem parseLet_malformed_spec :
    (∀ (fuel : Nat) (p : Parser), p.peekToken.type ≠ token.IDENT →
      parseLetStatement fuel p = some (none, { p with errors := p.errors
        ++ ["expected next token to be " ++ token.IDENT ++ ", got "
            ++ p.peekToken.type ++ " instead"] })) ∧
    (∀ (fuel : Nat) (p : Parser), p.peekToken.type = token.IDENT →
      (pNextToken p).peekToken.type ≠ token.ASSIGN →
      parseLetStatement fuel p
        = some (none, { pNextToken p with errors := (pNextToken p).errors
            ++ ["expected next token to be " ++ token.ASSIGN ++ ", got "
                ++ (pNextToken p).peekToken.type ++ " instead"] })) ∧
    parseFuel 50 "let = 5; let x = 6;"
      = some ({ statements := [.expressionStatement ⟨token.ASSIGN, "="⟩ none,
                  .expressionStatement ⟨token.INT, "5"⟩
                    (some (.integerLiteral ⟨token.INT, "5"⟩ 5)),
                  .letStatement ⟨token.LET, "let"⟩ (some ⟨⟨token.IDENT, "x"⟩, "x"⟩) none] },
              ["expected next token to be IDENT, got = instead",
               "no prefix parse function for = found"]) := by
  refine ⟨?_, ?_, rfl⟩
  · intro fuel p h
    simp [parseLetStatement, expectPeek, peekTokenIs, h, peekError]
  · intro fuel p h1 h2
    simp [parseLetStatement, expectPeek, peekTokenIs, h1, h2, peekError]

/-- Witness for C6 at a concrete parser state: `let` followed by `=`. -/
theorem parseLet_malformed_spec_witness :
    parseLetStatement 1 ⟨[], ⟨token.LET, "let"⟩, ⟨token.ASSIGN, "="⟩, []⟩
      = some (none, ⟨[], ⟨token.LET, "let"⟩, ⟨token.ASSIGN, "="⟩,
          ["expected next token to be IDENT, got = instead"]⟩) :=
  parseLet_malformed_spec.1 1 ⟨[], ⟨token.LET, "let"⟩, ⟨token.ASSIGN, "="⟩, []⟩ (by decide)

/-! ## Claim C1: the skip-to-semicolon loops never check for EOF -/

theorem skipToSemicolon_none (p : Parser)
    (hc : p.curToken.type ≠ token.SEMICOLON)
    (hpk : p.peekToken.type ≠ token.SEMICOLON)
    (hts : ∀ t ∈ p.ts, t.type ≠ token.SEMICOLON) :
    ∀ fuel : Nat, skipToSemicolon fuel p = none := by
  intro fuel
  induction fuel generalizing p with
  | zero => rfl
  | succ n ih =>
    show (if curTokenIs p token.SEMICOLON then some p
          else skipToSemicolon n (pNextToken p)) = none
    rw [if_neg (by simp [curTokenIs, hc])]
    rcases hts3 : p.ts with _ | ⟨u, us⟩
    · refine ih (pNextToken p) hpk ?_ ?_
      · show (pullToken p.ts).1.type ≠ token.SEMICOLON
        rw [hts3]
        decide
      · intro t ht
        have hnil : (pNextToken p).ts = [] := by
          show (pullToken p.ts).2 = []
          rw [hts3]
          rfl
        rw [hnil] at ht
        cases ht
    · refine ih (pNextToken p) hpk ?_ ?_
      · show (pullToken p.ts).1.type ≠ token.SEMICOLON
        rw [hts3]
        exact hts u (by rw [hts3]; exact List.mem_cons_self u us)
      · intro t ht
        have hcons : (pNextToken p).ts = us := by
          show (pullToken p.ts).2 = us
          rw [hts3]
          rfl
        rw [hcons] at ht
        exact hts t (by rw [hts3]; exact List.mem_cons_of_mem u ht)

/-- C1 is a claim the code violates: parsing `"let x = 5"` (no terminating
semicolon) never terminates, because `parseLetStatement`'s skip loop only
stops on a SEMICOLON token and the scanner at end of input returns EOF
forever — as the code's own comment admits ("A missing semicolon will cause a
timeout").  Formally, the fuelled parse returns `none` (is still running) for
every fuel. -/
theorem parse_missing_semicolon_diverges :
    ∀ fuel : Nat, parseFuel fuel "let x = 5" = none := by
  intro fuel
  match fuel with
  | 0 => rfl
  | Nat.succ n =>
    have hskip : skipToSemicolon n
        ⟨[⟨token.EOF, ""⟩], ⟨token.ASSIGN, "="⟩, ⟨token.INT, "5"⟩, []⟩ = none :=
      skipToSemicolon_none _ (by decide) (by decide) (by decide) n
    have hstep : parseFuel (n + 1) "let x = 5"
        = (((skipToSemicolon n
              ⟨[⟨token.EOF, ""⟩], ⟨token.ASSIGN, "="⟩, ⟨token.INT, "5"⟩, []⟩).map
            (fun p3 => (some (Statement.letStatement ⟨token.LET, "let"⟩
                (some ⟨⟨token.IDENT, "x"⟩, "x"⟩) none), p3))).bind
          (fun r => parseProgramLoop n (pNextToken r.2)
              (match r.1 with | some s => [s] | none => []))).map
            (fun r2 => ({ statements := r2.1 }, r2.2.errors)) := rfl
    rw [hstep, hskip]
    rfl

/-! ## Claim C9: the minimal variant never populates value expressions -/

theorem parseStatement_minimal (fuel : Nat) (p : Parser) (st : Statement) (p1 : Parser)
    (h : parseStatement fuel p = some (some st, p1)) : minimalStmt st := by
  unfold parseStatement at h
  split_ifs at h with hlet hret
  · unfold parseLetStatement at h
    by_cases hr1 : (expectPeek p token.IDENT).1 = false
    · rw [if_pos hr1] at h
      cases h
    · rw [if_neg hr1] at h
      by_cases hr2 : (expectPeek (expectPeek p token.IDENT).2 token.ASSIGN).1 = false
      · rw [if_pos hr2] at h
        cases h
      · rw [if_neg hr2] at h
        rcases hsk : skipToSemicolon fuel
            (expectPeek (expectPeek p token.IDENT).2 token.ASSIGN).2 with _ | p3
        · rw [hsk] at h
          cases h
        · rw [hsk] at h
          rw [Option.map_some'] at h
          injection h with h
          injection h with h1 h2
          injection h1 with h1
          rw [← h1]
          exact ⟨by simp, rfl⟩
  · unfold parseReturnStatement at h
    rcases hsk : skipToSemicolon fuel (pNextToken p) with _ | p2
    · rw [hsk] at h
      cases h
    · rw [hsk] at h
      rw [Option.map_some'] at h
      injection h with h
      injection h with h1 h2
      injection h1 with h1
      rw [← h1]
      rfl
  · unfold parseExpressionStatement at h
    rcases hpe : parseExpression fuel LOWEST p with _ | r
    · rw [hpe] at h
      cases h
    · rw [hpe] at h
      rw [Option.map_some'] at h
      injection h with h
      injection h with h1 h2
      injection h1 with h1
      rw [← h1]
      exact trivial

theorem parseProgramLoop_minimal :
    ∀ (fuel : Nat) (p : Parser) (acc stmts : List Statement) (pf : Parser),
      parseProgramLoop fuel p acc = some (stmts, pf) →
      (∀ st ∈ acc, minimalStmt st) → ∀ st ∈ stmts, minimalStmt st := by
  intro fuel
  induction fuel with
  | zero => intro p acc stmts pf h; cases h
  | succ n ih =>
    intro p acc stmts pf h hacc
    have hstep : parseProgramLoop (n + 1) p acc
        = if curTokenIs p token.EOF then some (acc, p)
          else (parseStatement n p).bind fun r =>
            parseProgramLoop n (pNextToken r.2)
              (match r.1 with | some s => acc ++ [s] | none => acc) := rfl
    rw [hstep] at h
    by_cases he : curTokenIs p token.EOF
    · rw [if_pos he] at h
      injection h with h
      injection h with h1 h2
      rw [← h1]
      exact hacc
    · rw [if_neg he] at h
      rcases hps : parseStatement n p with _ | r
      · rw [hps] at h
        cases h
      · rw [hps] at h
        simp only [Option.some_bind] at h
        obtain ⟨ost, p2⟩ := r
        rcases ost with _ | st0
        · exact ih (pNextToken p2) acc stmts pf h hacc
        · refine ih (pNextToken p2) (acc ++ [st0]) stmts pf h ?_
          intro st hst
          rcases List.mem_append.mp hst with hmem | hmem
          · exact hacc st hmem
          · rcases List.mem_singleton.mp hmem with rfl
            exact parseStatement_minimal n p st p2 hps

/-- C9: in every Program that `ParseProgram` returns, every LetStatement
carries a binding name and no value expression, and every ReturnStatement no
value expression: the final parser implements the minimal variant that skips
bound/returned values up to the semicolon. -/
theorem parsed_statements_minimal (fuel : Nat) (s : String) (prog : Program)
    (errs : List String) (h : parseFuel fuel s = some (prog, errs)) :
    ∀ st ∈ prog.statements, minimalStmt st := by
  unfold parseFuel at h
  rcases hloop : parseProgramLoop fuel (Parser.new (tokenize s)) [] with _ | r
  · rw [hloop] at h
    cases h
  · rw [hloop] at h
    rw [Option.map_some'] at h
    injection h with h
    injection h with h1 h2
    have hst : prog.statements = r.1 := by rw [← h1]
    rw [hst]
    exact parseProgramLoop_minimal fuel _ [] r.1 r.2 (by rw [hloop])
      (by intro st hst2; cases hst2)

/-- Witness for C9 on the concrete input `"let x = 5; return 2;"`. -/
theorem parsed_statements_minimal_witness :
    minimalStmt (.letStatement ⟨token.LET, "let"⟩ (some ⟨⟨token.IDENT, "x"⟩, "x"⟩) none)
    ∧ minimalStmt (.returnStatement ⟨token.RETURN, "return"⟩ none) :=
  ⟨parsed_statements_minimal 50 "let x = 5; return 2;"
      ⟨[.letStatement ⟨token.LET, "let"⟩ (some ⟨⟨token.IDENT, "x"⟩, "x"⟩) none,
        .returnStatement ⟨token.RETURN, "return"⟩ none]⟩ [] rfl _ (by simp),
   parsed_statements_minimal 50 "let x = 5; return 2;"
      ⟨[.letStatement ⟨token.LET, "let"⟩ (some ⟨⟨token.IDENT, "x"⟩, "x"⟩) none,
        .returnStatement ⟨token.RETURN, "return"⟩ none]⟩ [] rfl _ (by simp)⟩

/-! ## Claim C2: round-tripping rendered programs

The counterexample: the canonical rendering parenthesizes every unary/binary
node, but the final parser registers no prefix rule for `(`, so those
renderings do not re-parse.  The amended claim covers programs made of let
and return statements; for those the rendering re-parses to the very same
statement list.  The development below characterizes the statements a
successful let/return-only parse can produce, computes their rendering,
re-tokenizes it, and re-parses the resulting block token stream. -/

theorem isLetter_not_special (c : Char) (h : isLetter c = true) :
    isWs c = false ∧ c ≠ '=' ∧ c ≠ '+' ∧ c ≠ '-' ∧ c ≠ '!' ∧ c ≠ '*' ∧ c ≠ '/' ∧
    c ≠ '<' ∧ c ≠ '>' ∧ c ≠ ',' ∧ c ≠ '\x7b' ∧ c ≠ '(' ∧ c ≠ '\x7d' ∧ c ≠ ')' ∧
    c ≠ ';' ∧ c ≠ nulChar := by
  have hws : isWs c = false := by
    cases hw : isWs c
    · rfl
    · exfalso
      have hw2 := hw
      simp [isWs] at hw2
      rcases hw2 with ((rfl | rfl) | rfl) | rfl <;> exact absurd h (by decide)
  exact ⟨hws,
    fun hc => absurd (hc ▸ h) (by decide), fun hc => absurd (hc ▸ h) (by decide),
    fun hc => absurd (hc ▸ h) (by decide), fun hc => absurd (hc ▸ h) (by decide),
    fun hc => absurd (hc ▸ h) (by decide), fun hc => absurd (hc ▸ h) (by decide),
    fun hc => absurd (hc ▸ h) (by decide), fun hc => absurd (hc ▸ h) (by decide),
    fun hc => absurd (hc ▸ h) (by decide), fun hc => absurd (hc ▸ h) (by decide),
    fun hc => absurd (hc ▸ h) (by decide), fun hc => absurd (hc ▸ h) (by decide),
    fun hc => absurd (hc ▸ h) (by decide), fun hc => absurd (hc ▸ h) (by decide),
    fun hc => absurd (hc ▸ h) (by decide)⟩

theorem takeWhile_all_stop (p : Char → Bool) :
    ∀ (xs : List Char), (∀ c ∈ xs, p c = true) → ∀ (y : Char), p y = false →
      ∀ (rest : List Char),
        (xs ++ y :: rest).takeWhile p = xs ∧ (xs ++ y :: rest).dropWhile p = y :: rest := by
  intro xs
  induction xs with
  | nil =>
    intro _ y hy rest
    constructor
    · show (y :: rest).takeWhile p = []
      rw [List.takeWhile_cons, if_neg (by simp [hy])]
    · show (y :: rest).dropWhile p = y :: rest
      rw [List.dropWhile_cons, if_neg (by simp [hy])]
  | cons a l ih =>
    intro hall y hy rest
    have ha : p a = true := hall a (List.mem_cons_self a l)
    obtain ⟨i1, i2⟩ := ih (fun c hc => hall c (List.mem_cons_of_mem a hc)) y hy rest
    constructor
    · show ((a :: l) ++ y :: rest).takeWhile p = a :: l
      rw [List.cons_append, List.takeWhile_cons, if_pos (by simp [ha]), i1]
    · show ((a :: l) ++ y :: rest).dropWhile p = y :: rest
      rw [List.cons_append, List.dropWhile_cons, if_pos (by simp [ha]), i2]

theorem lexNextCore_name (nm : String) (hn : IdentLit nm) (Z : List Char) :
    lexNextCore (nm.data ++ ' ' :: Z) = ({ type := token.IDENT, literal := nm }, ' ' :: Z) := by
  obtain ⟨hne, hall, hlook⟩ := hn
  rcases hd : nm.data with _ | ⟨c, cs⟩
  · exact absurd hd hne
  have hc : isLetter c = true := by
    refine hall c ?_
    rw [hd]
    exact List.mem_cons_self c cs
  obtain ⟨hws, d1, d2, d3, d4, d5, d6, d7, d8, d9, d10, d11, d12, d13, d14, d15⟩ :=
    isLetter_not_special c hc
  have hallcs : ∀ x ∈ cs, isLetter x = true := by
    intro x hx
    refine hall x ?_
    rw [hd]
    exact List.mem_cons_of_mem c hx
  obtain ⟨tw, dw⟩ := takeWhile_all_stop isLetter (c :: cs)
    (by intro x hx; rcases List.mem_cons.mp hx with rfl | hx2
        · exact hc
        · exact hallcs x hx2)
    ' ' (by decide) Z
  show lexNextCore ((c :: cs) ++ ' ' :: Z) = _
  rw [List.cons_append]
  show (if c = '=' then _ else _) = _
  rw [if_neg d1, if_neg d2, if_neg d3, if_neg d4, if_neg d5, if_neg d6, if_neg d7,
    if_neg d8, if_neg d9, if_neg d10, if_neg d11, if_neg d12, if_neg d13, if_neg d14,
    if_neg d15, if_pos hc]
  rw [show (c :: (cs ++ ' ' :: Z)) = ((c :: cs) ++ ' ' :: Z) from by rw [List.cons_append]]
  rw [tw, dw]
  have hmk : String.mk (c :: cs) = nm := by rw [← hd]
  rw [hmk]
  simp only [hlook]

theorem letBlock_data (nm : String) :
    ("let " ++ nm ++ " = ;").data
      = 'l' :: 'e' :: 't' :: ' ' :: (nm.data ++ [' ', '=', ' ', ';']) := by
  rw [String.data_append, String.data_append]
  rw [show ("let " : String).data = ['l', 'e', 't', ' '] from rfl,
      show (" = ;" : String).data = [' ', '=', ' ', ';'] from rfl]
  simp

theorem lexAllFuel_step (k : Nat) (cs cs2 : List Char) (t : Token)
    (hstep : lexNext cs = (t, cs2)) (hne : t.type ≠ token.EOF) :
    lexAllFuel (k + 1) cs = t :: lexAllFuel k cs2 := by
  show (if (lexNext cs).1.type = token.EOF then [(lexNext cs).1]
        else (lexNext cs).1 :: lexAllFuel k (lexNext cs).2) = _
  rw [hstep]
  simp [hne]

theorem lexNext_let_kw (X : List Char) :
    lexNext ('l' :: 'e' :: 't' :: ' ' :: X)
      = ({ type := token.LET, literal := "let" }, ' ' :: X) := rfl

theorem lexNext_return_kw (X : List Char) :
    lexNext ('r' :: 'e' :: 't' :: 'u' :: 'r' :: 'n' :: ' ' :: X)
      = ({ type := token.RETURN, literal := "return" }, ' ' :: X) := rfl

theorem lexNext_name (nm : String) (hn : IdentLit nm) (Z : List Char) :
    lexNext (' ' :: (nm.data ++ ' ' :: Z)) = ({ type := token.IDENT, literal := nm }, ' ' :: Z) := by
  have hdw : (nm.data ++ ' ' :: Z).dropWhile isWs = nm.data ++ ' ' :: Z := by
    rcases hd : nm.data with _ | ⟨c, cs⟩
    · exact absurd hd hn.1
    have hc : isLetter c = true := by
      refine hn.2.1 c ?_
      rw [hd]
      exact List.mem_cons_self c cs
    rw [List.cons_append, List.dropWhile_cons,
      if_neg (by simp [(isLetter_not_special c hc).1])]
  show lexNextCore ((' ' :: (nm.data ++ ' ' :: Z)).dropWhile isWs) = _
  rw [List.dropWhile_cons, if_pos (by decide), hdw]
  exact lexNextCore_name nm hn Z

theorem lexNext_assign_semi (R : List Char) :
    lexNext (' ' :: '=' :: ' ' :: ';' :: R)
      = ({ type := token.ASSIGN, literal := "=" }, ' ' :: ';' :: R) := rfl

theorem lexNext_semi (R : List Char) :
    lexNext (' ' :: ';' :: R) = ({ type := token.SEMICOLON, literal := ";" }, R) := rfl

theorem lexAllFuel_blocks :
    ∀ (stmts : List Statement), (∀ st ∈ stmts, LRStmt st) →
      ∀ (n : Nat), (stmts.flatMap lrChars).length + 1 ≤ n →
      lexAllFuel n (stmts.flatMap lrChars)
        = stmts.flatMap blockToks ++ [⟨token.EOF, ""⟩] := by
  intro stmts
  induction stmts with
  | nil =>
    intro _ n hn
    obtain ⟨m, rfl⟩ : ∃ m, n = m + 1 := ⟨n - 1, by omega⟩
    rfl
  | cons st rest ih =>
    intro hall n hn
    have hst : LRStmt st := hall st (List.mem_cons_self st rest)
    have hrest : ∀ s ∈ rest, LRStmt s := fun s hs => hall s (List.mem_cons_of_mem st hs)
    rcases st with ⟨tok, name, value⟩ | ⟨tok, rv⟩ | ⟨tok, e⟩
    · obtain ⟨htok, hval, nm, hname, hid⟩ := hst
      subst htok
      subst hval
      subst hname
      have hchars : ((Statement.letStatement ⟨token.LET, "let"⟩
            (some ⟨⟨token.IDENT, nm⟩, nm⟩) none) :: rest).flatMap lrChars
          = 'l' :: 'e' :: 't' :: ' '
            :: (nm.data ++ ' ' :: '=' :: ' ' :: ';' :: rest.flatMap lrChars) := by
        rw [List.flatMap_cons]
        show ("let " ++ nm ++ " = ;").data ++ rest.flatMap lrChars = _
        rw [letBlock_data]
        simp
      rw [hchars] at hn ⊢
      simp only [List.length_cons, List.length_append] at hn
      obtain ⟨m, rfl⟩ : ∃ m, n = m + 4 := ⟨n - 4, by omega⟩
      rw [lexAllFuel_step (m + 3) _ _ _ (lexNext_let_kw _) (by decide)]
      rw [lexAllFuel_step (m + 2) _ _ _ (lexNext_name nm hid _)
        (by show token.IDENT ≠ token.EOF; decide)]
      rw [lexAllFuel_step (m + 1) _ _ _ (lexNext_assign_semi _) (by decide)]
      rw [lexAllFuel_step m _ _ _ (lexNext_semi _) (by decide)]
      rw [ih hrest m (by omega)]
      simp [List.flatMap_cons, blockToks]
    · obtain ⟨htok, hrv⟩ := hst
      subst htok
      subst hrv
      have hchars : ((Statement.returnStatement ⟨token.RETURN, "return"⟩ none) :: rest).flatMap
            lrChars
          = 'r' :: 'e' :: 't' :: 'u' :: 'r' :: 'n' :: ' ' :: ';' :: rest.flatMap lrChars := by
        rw [List.flatMap_cons]
        rfl
      rw [hchars] at hn ⊢
      simp only [List.length_cons] at hn
      obtain ⟨m, rfl⟩ : ∃ m, n = m + 2 := ⟨n - 2, by omega⟩
      rw [lexAllFuel_step (m + 1) _ _ _ (lexNext_return_kw _) (by decide)]
      rw [lexAllFuel_step m _ _ _ (lexNext_semi _) (by decide)]
      rw [ih hrest m (by omega)]
      simp [List.flatMap_cons, blockToks]
    · exact absurd hst (by simp [LRStmt])

theorem renderLet_eq_block (nm : String) :
    ("let" ++ " " ++ nm ++ " = " ++ ";").data = ("let " ++ nm ++ " = ;").data := by
  rw [letBlock_data]
  rw [String.data_append, String.data_append, String.data_append, String.data_append]
  rw [show ("let" : String).data = ['l', 'e', 't'] from rfl,
      show (" " : String).data = [' '] from rfl,
      show (" = " : String).data = [' ', '=', ' '] from rfl,
      show (";" : String).data = [';'] from rfl]
  simp

theorem renderFold_LR :
    ∀ (stmts : List Statement), (∀ st ∈ stmts, LRStmt st) → ∀ (out : String),
      ∃ r : String,
        List.foldlM (fun out st => (renderStmt st).map (out ++ ·)) out stmts = some r ∧
        r.data = out.data ++ stmts.flatMap lrChars := by
  intro stmts
  induction stmts with
  | nil =>
    intro _ out
    exact ⟨out, rfl, by simp⟩
  | cons st rest ih =>
    intro hall out
    have hst := hall st (List.mem_cons_self st rest)
    have hrest := fun s hs => hall s (List.mem_cons_of_mem st hs)
    rcases st with ⟨tok, name, value⟩ | ⟨tok, rv⟩ | _
    · obtain ⟨htok, hval, nm, hname, hid⟩ := hst
      subst htok
      subst hval
      subst hname
      obtain ⟨r, hfold, hdata⟩ := ih hrest (out ++ ("let" ++ " " ++ nm ++ " = " ++ ";"))
      refine ⟨r, ?_, ?_⟩
      · rw [List.foldlM_cons]
        show ((renderStmt _).map (out ++ ·)) >>= _ = some r
        rw [show renderStmt (.letStatement ⟨token.LET, "let"⟩
              (some ⟨⟨token.IDENT, nm⟩, nm⟩) none)
            = some ("let" ++ " " ++ nm ++ " = " ++ ";") from rfl]
        exact hfold
      · rw [hdata, String.data_append, renderLet_eq_block]
        have : lrChars (.letStatement ⟨token.LET, "let"⟩ (some ⟨⟨token.IDENT, nm⟩, nm⟩) none)
            = ("let " ++ nm ++ " = ;").data := rfl
        rw [List.flatMap_cons, this]
        simp
    · obtain ⟨htok, hrv⟩ := hst
      subst htok
      subst hrv
      obtain ⟨r, hfold, hdata⟩ := ih hrest (out ++ ("return" ++ " " ++ ";"))
      refine ⟨r, ?_, ?_⟩
      · rw [List.foldlM_cons]
        show ((renderStmt _).map (out ++ ·)) >>= _ = some r
        rw [show renderStmt (.returnStatement ⟨token.RETURN, "return"⟩ none)
            = some ("return" ++ " " ++ ";") from rfl]
        exact hfold
      · rw [hdata, String.data_append]
        have : lrChars (.returnStatement ⟨token.RETURN, "return"⟩ none)
            = ("return" ++ " " ++ ";").data := rfl
        rw [List.flatMap_cons, this]
        simp
    · exact absurd hst (by simp [LRStmt])

theorem renderProgram_LR (stmts : List Statement) (hall : ∀ st ∈ stmts, LRStmt st) :
    ∃ r : String, renderProgram ⟨stmts⟩ = some r ∧ r.data = stmts.flatMap lrChars := by
  obtain ⟨r, h1, h2⟩ := renderFold_LR stmts hall ""
  refine ⟨r, h1, ?_⟩
  rw [h2]
  simp

theorem goodTok_eof : GoodTok ⟨token.EOF, ""⟩ :=
  goodTok_of_type _ _ (by decide) (by decide) (by decide)

theorem streamGood_pNext (p : Parser) (h : StreamGood p) : StreamGood (pNextToken p) := by
  obtain ⟨h1, h2, h3⟩ := h
  refine ⟨h2, ?_, ?_⟩
  · show GoodTok (pullToken p.ts).1
    rcases hts : p.ts with _ | ⟨u, us⟩
    · exact goodTok_eof
    · exact h3 u (by rw [hts]; exact List.mem_cons_self u us)
  · intro t ht
    refine h3 t ?_
    revert ht
    show t ∈ (pullToken p.ts).2 → t ∈ p.ts
    rcases hts : p.ts with _ | ⟨u, us⟩
    · intro ht
      cases ht
    · intro ht
      exact List.mem_cons_of_mem u ht

theorem streamGood_new (ts : List Token) (h : ∀ t ∈ ts, GoodTok t) :
    StreamGood (Parser.new ts) := by
  refine streamGood_pNext _ (streamGood_pNext _ ?_)
  exact ⟨goodTok_of_type "" "" (by decide) (by decide) (by decide),
    goodTok_of_type "" "" (by decide) (by decide) (by decide), h⟩

theorem streamGood_skip :
    ∀ (fuel : Nat) (p p2 : Parser), skipToSemicolon fuel p = some p2 → StreamGood p →
      StreamGood p2 ∧ p2.errors = p.errors := by
  intro fuel
  induction fuel with
  | zero => intro p p2 h; cases h
  | succ n ih =>
    intro p p2 h hg
    rw [show skipToSemicolon (n + 1) p
        = (if curTokenIs p token.SEMICOLON then some p
           else skipToSemicolon n (pNextToken p)) from rfl] at h
    by_cases hc : curTokenIs p token.SEMICOLON
    · rw [if_pos hc] at h
      injection h with h
      rw [← h]
      exact ⟨hg, rfl⟩
    · rw [if_neg hc] at h
      obtain ⟨r1, r2⟩ := ih (pNextToken p) p2 h (streamGood_pNext p hg)
      exact ⟨r1, r2⟩

theorem acc_subset_result :
    ∀ (fuel : Nat) (p : Parser) (acc stmts : List Statement) (pf : Parser),
      parseProgramLoop fuel p acc = some (stmts, pf) → ∀ st ∈ acc, st ∈ stmts := by
  intro fuel
  induction fuel with
  | zero => intro p acc stmts pf h; cases h
  | succ n ih =>
    intro p acc stmts pf h st hst
    rw [show parseProgramLoop (n + 1) p acc
        = (if curTokenIs p token.EOF then some (acc, p)
           else (parseStatement n p).bind fun r =>
             parseProgramLoop n (pNextToken r.2)
               (match r.1 with | some s => acc ++ [s] | none => acc)) from rfl] at h
    by_cases he : curTokenIs p token.EOF
    · rw [if_pos he] at h
      injection h with h
      injection h with h1 h2
      rw [← h1]
      exact hst
    · rw [if_neg he] at h
      rcases hps : parseStatement n p with _ | r
      · rw [hps] at h
        cases h
      · rw [hps] at h
        simp only [Option.some_bind] at h
        obtain ⟨ost, p2⟩ := r
        rcases ost with _ | st0
        · exact ih (pNextToken p2) acc stmts pf h st hst
        · exact ih (pNextToken p2) (acc ++ [st0]) stmts pf h st
            (List.mem_append.mpr (Or.inl hst))

theorem streamGood_expectPeek (p : Parser) (t : TokenType) (h : StreamGood p) :
    StreamGood (expectPeek p t).2 := by
  unfold expectPeek
  split_ifs with hc
  · exact streamGood_pNext p h
  · exact h

theorem expectPeek_true (p : Parser) (t : TokenType) (h : ¬ (expectPeek p t).1 = false) :
    peekTokenIs p t = true ∧ (expectPeek p t).2 = pNextToken p := by
  by_cases hc : peekTokenIs p t
  · refine ⟨hc, ?_⟩
    show (expectPeek p t).2 = _
    unfold expectPeek
    rw [if_pos hc]
  · exfalso
    apply h
    show (expectPeek p t).1 = false
    unfold expectPeek
    rw [if_neg hc]

theorem parseProgramLoop_LRshape :
    ∀ (fuel : Nat) (p : Parser) (acc stmts : List Statement) (pf : Parser),
      parseProgramLoop fuel p acc = some (stmts, pf) →
      StreamGood p →
      (∀ st ∈ stmts, isLetOrReturn st = true) →
      (∀ st ∈ acc, LRStmt st) →
      ∀ st ∈ stmts, LRStmt st := by
  intro fuel
  induction fuel with
  | zero => intro p acc stmts pf h; cases h
  | succ n ih =>
    intro p acc stmts pf h hg hshape hacc
    rw [show parseProgramLoop (n + 1) p acc
        = (if curTokenIs p token.EOF then some (acc, p)
           else (parseStatement n p).bind fun r =>
             parseProgramLoop n (pNextToken r.2)
               (match r.1 with | some s => acc ++ [s] | none => acc)) from rfl] at h
    by_cases he : curTokenIs p token.EOF
    · rw [if_pos he] at h
      injection h with h
      injection h with h1 h2
      rw [← h1]
      exact hacc
    · rw [if_neg he] at h
      unfold parseStatement at h
      split_ifs at h with hlet hret
      · unfold parseLetStatement at h
        by_cases hr1 : (expectPeek p token.IDENT).1 = false
        · rw [if_pos hr1] at h
          simp only [Option.some_bind] at h
          exact ih (pNextToken (expectPeek p token.IDENT).2) acc stmts pf h
            (streamGood_pNext _ (streamGood_expectPeek p token.IDENT hg)) hshape hacc
        · rw [if_neg hr1] at h
          by_cases hr2 : (expectPeek (expectPeek p token.IDENT).2 token.ASSIGN).1 = false
          · rw [if_pos hr2] at h
            simp only [Option.some_bind] at h
            exact ih _ acc stmts pf h
              (streamGood_pNext _ (streamGood_expectPeek _ _
                (streamGood_expectPeek _ _ hg))) hshape hacc
          · rw [if_neg hr2] at h
            rcases hsk : skipToSemicolon n
                (expectPeek (expectPeek p token.IDENT).2 token.ASSIGN).2 with _ | p3
            · rw [hsk] at h
              cases h
            · rw [hsk] at h
              rw [Option.map_some'] at h
              simp only [Option.some_bind] at h
              obtain ⟨hpk1, he1⟩ := expectPeek_true p token.IDENT hr1
              have hpkty : p.peekToken.type = token.IDENT := by
                simpa [peekTokenIs] using hpk1
              have hcurlit : p.curToken.literal = "let" := hg.1.2.1 hlet
              have hcur : p.curToken = ⟨token.LET, "let"⟩ := by
                calc p.curToken = ⟨p.curToken.type, p.curToken.literal⟩ := rfl
                  _ = ⟨token.LET, "let"⟩ := by rw [hlet, hcurlit]
              have hpeek : p.peekToken = ⟨token.IDENT, p.peekToken.literal⟩ := by
                calc p.peekToken = ⟨p.peekToken.type, p.peekToken.literal⟩ := rfl
                  _ = ⟨token.IDENT, p.peekToken.literal⟩ := by rw [hpkty]
              have hident : IdentLit p.peekToken.literal := hg.2.1.1 hpkty
              have hLR : LRStmt (.letStatement p.curToken
                  (some ⟨(expectPeek p token.IDENT).2.curToken,
                         (expectPeek p token.IDENT).2.curToken.literal⟩) none) := by
                rw [he1]
                show LRStmt (.letStatement p.curToken
                  (some ⟨p.peekToken, p.peekToken.literal⟩) none)
                refine ⟨hcur, rfl, p.peekToken.literal, ?_, hident⟩
                rw [← hpeek]
              refine ih (pNextToken p3) _ stmts pf h ?_ hshape ?_
              · refine streamGood_pNext _ ?_
                exact (streamGood_skip n _ p3 hsk
                  (streamGood_expectPeek _ _ (streamGood_expectPeek _ _ hg))).1
              · intro st2 hst2
                rcases List.mem_append.mp hst2 with hmem | hmem
                · exact hacc st2 hmem
                · rcases List.mem_singleton.mp hmem with rfl
                  exact hLR
      · unfold parseReturnStatement at h
        rcases hsk : skipToSemicolon n (pNextToken p) with _ | p2
        · rw [hsk] at h
          cases h
        · rw [hsk] at h
          rw [Option.map_some'] at h
          simp only [Option.some_bind] at h
          have hcurlit : p.curToken.literal = "return" := hg.1.2.2 hret
          have hcur : p.curToken = ⟨token.RETURN, "return"⟩ := by
            calc p.curToken = ⟨p.curToken.type, p.curToken.literal⟩ := rfl
              _ = ⟨token.RETURN, "return"⟩ := by rw [hret, hcurlit]
          refine ih (pNextToken p2) _ stmts pf h ?_ hshape ?_
          · exact streamGood_pNext _
              (streamGood_skip n _ p2 hsk (streamGood_pNext p hg)).1
          · intro st2 hst2
            rcases List.mem_append.mp hst2 with hmem | hmem
            · exact hacc st2 hmem
            · rcases List.mem_singleton.mp hmem with rfl
              exact ⟨hcur, rfl⟩
      · unfold parseExpressionStatement at h
        rcases hpe : parseExpression n LOWEST p with _ | r
        · rw [hpe] at h
          cases h
        · rw [hpe] at h
          rw [Option.map_some'] at h
          simp only [Option.some_bind] at h
          have hmem : Statement.expressionStatement p.curToken r.1 ∈ stmts :=
            acc_subset_result n _ _ stmts pf h _
              (List.mem_append.mpr (Or.inr (List.mem_singleton.mpr rfl)))
          have := hshape _ hmem
          simp [isLetOrReturn] at this

theorem parseProgramLoop_succ (n : Nat) (p : Parser) (acc : List Statement) :
    parseProgramLoop (n + 1) p acc
      = if curTokenIs p token.EOF then some (acc, p)
        else (parseStatement n p).bind fun r =>
          parseProgramLoop n (pNextToken r.2)
            (match r.1 with | some s => acc ++ [s] | none => acc) := rfl

theorem skipToSemicolon_succ (n : Nat) (p : Parser) :
    skipToSemicolon (n + 1) p
      = if curTokenIs p token.SEMICOLON then some p
        else skipToSemicolon n (pNextToken p) := rfl

theorem parseLetStatement_eq (fuel : Nat) (p : Parser) :
    parseLetStatement fuel p
      = if (expectPeek p token.IDENT).1 = false then some (none, (expectPeek p token.IDENT).2)
        else if (expectPeek (expectPeek p token.IDENT).2 token.ASSIGN).1 = false then
          some (none, (expectPeek (expectPeek p token.IDENT).2 token.ASSIGN).2)
        else
          (skipToSemicolon fuel (expectPeek (expectPeek p token.IDENT).2 token.ASSIGN).2).map
            fun p3 => (some (.letStatement p.curToken
              (some ⟨(expectPeek p token.IDENT).2.curToken,
                     (expectPeek p token.IDENT).2.curToken.literal⟩) none), p3) := rfl

theorem pNext_cur (p : Parser) : (pNextToken p).curToken = p.peekToken := rfl

theorem stream_pNext (p : Parser) (rest : List Token) (h : p.peekToken :: p.ts = rest) :
    ∃ e, (pNextToken p).curToken :: (pNextToken p).peekToken :: (pNextToken p).ts = rest ++ e ∧
      ∀ x ∈ e, x = ({ type := token.EOF, literal := "" } : Token) := by
  subst h
  rcases hts : p.ts with _ | ⟨u, us⟩
  · exact ⟨[⟨token.EOF, ""⟩], by simp [pNextToken, pullToken, hts],
      by intro x hx; simpa using hx⟩
  · exact ⟨[], by simp [pNextToken, pullToken, hts], by intro x hx; cases hx⟩

theorem expectPeek_hit (p : Parser) (t : TokenType) (h : p.peekToken.type = t) :
    (expectPeek p t).1 = true ∧ (expectPeek p t).2 = pNextToken p := by
  have hc : peekTokenIs p t = true := by simp [peekTokenIs, h]
  constructor
  · show (expectPeek p t).1 = true
    unfold expectPeek
    rw [if_pos hc]
  · show (expectPeek p t).2 = pNextToken p
    unfold expectPeek
    rw [if_pos hc]

theorem parseReturnStatement_eq (fuel : Nat) (p : Parser) :
    parseReturnStatement fuel p
      = (skipToSemicolon fuel (pNextToken p)).map fun p2 =>
          (some (.returnStatement p.curToken none), p2) := rfl

theorem skip_hit (fuel : Nat) (p : Parser) (h1 : 1 ≤ fuel)
    (hc : curTokenIs p token.SEMICOLON = true) :
    skipToSemicolon fuel p = some p := by
  obtain ⟨k, rfl⟩ : ∃ k, fuel = k + 1 := ⟨fuel - 1, by omega⟩
  rw [skipToSemicolon_succ, if_pos hc]

theorem skip_two (fuel : Nat) (p : Parser) (h2 : 2 ≤ fuel)
    (hc : curTokenIs p token.SEMICOLON = false)
    (hc2 : curTokenIs (pNextToken p) token.SEMICOLON = true) :
    skipToSemicolon fuel p = some (pNextToken p) := by
  obtain ⟨k, rfl⟩ : ∃ k, fuel = k + 1 + 1 := ⟨fuel - 2, by omega⟩
  rw [skipToSemicolon_succ, if_neg (by simp [hc]), skipToSemicolon_succ, if_pos hc2]

/-- Running the parse loop on the token rendering of a list of let/return
statements reconstructs exactly those statements and adds no errors. -/
theorem parse_blocks (stmts : List Statement) :
    (∀ st ∈ stmts, LRStmt st) →
    ∀ (n : Nat) (p : Parser) (acc : List Statement) (pad : List Token),
      p.curToken :: p.peekToken :: p.ts = stmts.flatMap blockToks ++ pad →
      (∀ t ∈ pad, t = ({ type := token.EOF, literal := "" } : Token)) →
      3 * stmts.length + 1 ≤ n →
      ∃ pf : Parser, parseProgramLoop n p acc = some (acc ++ stmts, pf) ∧
        pf.errors = p.errors := by
  induction stmts with
  | nil =>
    intro _ n p acc pad hstream hpad hn
    obtain ⟨m, rfl⟩ : ∃ m, n = m + 1 := ⟨n - 1, by omega⟩
    have hcur : p.curToken = ⟨token.EOF, ""⟩ := by
      refine hpad _ ?_
      rw [List.flatMap_nil, List.nil_append] at hstream
      rw [← hstream]
      exact List.mem_cons_self _ _
    have hce : curTokenIs p token.EOF = true := by simp [curTokenIs, hcur]
    refine ⟨p, ?_, rfl⟩
    rw [parseProgramLoop_succ, if_pos hce, List.append_nil]
  | cons st rest ih =>
    intro hLR n p acc pad hstream hpad hn
    have hLRst : LRStmt st := hLR st (List.mem_cons_self _ _)
    have hLRrest : ∀ s ∈ rest, LRStmt s := fun s hs => hLR s (List.mem_cons_of_mem _ hs)
    simp only [List.length_cons] at hn
    obtain ⟨m, rfl⟩ : ∃ m, n = m + 2 + 1 := ⟨n - 3, by omega⟩
    cases st with
    | letStatement tok name value =>
      obtain ⟨rfl, rfl, nm, rfl, hid⟩ := hLRst
      have hstream2 : p.curToken :: p.peekToken :: p.ts
          = ⟨token.LET, "let"⟩ :: ⟨token.IDENT, nm⟩ :: ⟨token.ASSIGN, "="⟩ ::
            ⟨token.SEMICOLON, ";"⟩ :: (rest.flatMap blockToks ++ pad) := by
        rw [hstream, List.flatMap_cons]
        simp [blockToks]
      injection hstream2 with hcur htl1
      injection htl1 with hpeek htl2
      have h1 := expectPeek_hit p token.IDENT (by rw [hpeek])
      have hp1cur : (pNextToken p).curToken = ⟨token.IDENT, nm⟩ := hpeek
      have hp1peek : (pNextToken p).peekToken = ⟨token.ASSIGN, "="⟩ := by
        show (pullToken p.ts).1 = _
        rw [htl2]
        rfl
      have hp1ts : (pNextToken p).ts
          = ⟨token.SEMICOLON, ";"⟩ :: (rest.flatMap blockToks ++ pad) := by
        show (pullToken p.ts).2 = _
        rw [htl2]
        rfl
      have h2 := expectPeek_hit (pNextToken p) token.ASSIGN (by rw [hp1peek])
      have hp2cur : (pNextToken (pNextToken p)).curToken = ⟨token.ASSIGN, "="⟩ := hp1peek
      have hp2peek : (pNextToken (pNextToken p)).peekToken = ⟨token.SEMICOLON, ";"⟩ := by
        show (pullToken (pNextToken p).ts).1 = _
        rw [hp1ts]
        rfl
      have hp2ts : (pNextToken (pNextToken p)).ts = rest.flatMap blockToks ++ pad := by
        show (pullToken (pNextToken p).ts).2 = _
        rw [hp1ts]
        rfl
      have hskip : skipToSemicolon (m + 2) (pNextToken (pNextToken p))
          = some (pNextToken (pNextToken (pNextToken p))) :=
        skip_two _ _ (by omega) (by simp [curTokenIs, hp2cur]; decide)
          (by simp [curTokenIs, pNext_cur, hp2peek])
      have hdisp : parseStatement (m + 2) p = parseLetStatement (m + 2) p := by
        unfold parseStatement
        rw [if_pos (by rw [hcur])]
      have hlet : parseLetStatement (m + 2) p
          = some (some (.letStatement ⟨token.LET, "let"⟩
              (some ⟨⟨token.IDENT, nm⟩, nm⟩) none),
              pNextToken (pNextToken (pNextToken p))) := by
        rw [parseLetStatement_eq]
        rw [if_neg (by rw [h1.1]; simp)]
        rw [h1.2]
        rw [if_neg (by rw [h2.1]; simp)]
        rw [h2.2]
        rw [hskip, Option.map_some']
        rw [hcur, hp1cur]
      obtain ⟨e1, hs3, he1⟩ := stream_pNext (pNextToken (pNextToken p)) _ rfl
      rw [List.cons_append] at hs3
      injection hs3 with hs3a hs3b
      rw [hp2ts] at hs3b
      obtain ⟨e2, hs4, he2⟩ := stream_pNext (pNextToken (pNextToken (pNextToken p))) _ rfl
      rw [hs3b, List.append_assoc, List.append_assoc] at hs4
      have hpad' : ∀ t ∈ pad ++ (e1 ++ e2),
          t = ({ type := token.EOF, literal := "" } : Token) := by
        intro t ht
        rcases List.mem_append.1 ht with h | h
        · exact hpad t h
        · rcases List.mem_append.1 h with h | h
          · exact he1 t h
          · exact he2 t h
      obtain ⟨pf, hpf, hperr⟩ := ih hLRrest (m + 2)
        (pNextToken (pNextToken (pNextToken (pNextToken p))))
        (acc ++ [Statement.letStatement ⟨token.LET, "let"⟩
          (some ⟨⟨token.IDENT, nm⟩, nm⟩) none])
        (pad ++ (e1 ++ e2)) hs4 hpad' (by omega)
      rw [List.append_assoc] at hpf
      refine ⟨pf, ?_, hperr⟩
      rw [parseProgramLoop_succ, if_neg (by simp [curTokenIs, hcur]; decide), hdisp, hlet,
        Option.some_bind]
      exact hpf
    | returnStatement tok rv =>
      obtain ⟨rfl, rfl⟩ := hLRst
      have hstream2 : p.curToken :: p.peekToken :: p.ts
          = ⟨token.RETURN, "return"⟩ :: ⟨token.SEMICOLON, ";"⟩ ::
            (rest.flatMap blockToks ++ pad) := by
        rw [hstream, List.flatMap_cons]
        simp [blockToks]
      injection hstream2 with hcur htl1
      injection htl1 with hpeek htl2
      have hp1cur : (pNextToken p).curToken = ⟨token.SEMICOLON, ";"⟩ := hpeek
      have hskip : skipToSemicolon (m + 2) (pNextToken p) = some (pNextToken p) :=
        skip_hit _ _ (by omega) (by simp [curTokenIs, hp1cur])
      have hdisp : parseStatement (m + 2) p = parseReturnStatement (m + 2) p := by
        unfold parseStatement
        rw [if_neg (by rw [hcur]; decide)]
        rw [if_pos (by rw [hcur])]
      have hret : parseReturnStatement (m + 2) p
          = some (some (.returnStatement ⟨token.RETURN, "return"⟩ none), pNextToken p) := by
        rw [parseReturnStatement_eq, hskip, Option.map_some', hcur]
      obtain ⟨e1, hs2, he1⟩ := stream_pNext p _ rfl
      rw [List.cons_append] at hs2
      injection hs2 with hs2a hs2b
      rw [htl2] at hs2b
      obtain ⟨e2, hs3, he2⟩ := stream_pNext (pNextToken p) _ rfl
      rw [hs2b, List.append_assoc, List.append_assoc] at hs3
      have hpad' : ∀ t ∈ pad ++ (e1 ++ e2),
          t = ({ type := token.EOF, literal := "" } : Token) := by
        intro t ht
        rcases List.mem_append.1 ht with h | h
        · exact hpad t h
        · rcases List.mem_append.1 h with h | h
          · exact he1 t h
          · exact he2 t h
      obtain ⟨pf, hpf, hperr⟩ := ih hLRrest (m + 2)
        (pNextToken (pNextToken p))
        (acc ++ [Statement.returnStatement ⟨token.RETURN, "return"⟩ none])
        (pad ++ (e1 ++ e2)) hs3 hpad' (by omega)
      rw [List.append_assoc] at hpf
      refine ⟨pf, ?_, hperr⟩
      rw [parseProgramLoop_succ, if_neg (by simp [curTokenIs, hcur]; decide), hdisp, hret,
        Option.some_bind]
      exact hpf
    | expressionStatement tok e =>
      exact absurd hLRst (by simp [LRStmt])

theorem parserNew_stream (ts : List Token) :
    ∃ pad, (Parser.new ts).curToken :: (Parser.new ts).peekToken :: (Parser.new ts).ts
        = ts ++ pad
      ∧ (∀ t ∈ pad, t = ({ type := token.EOF, literal := "" } : Token))
      ∧ (Parser.new ts).errors = [] := by
  match ts with
  | [] =>
    refine ⟨[⟨token.EOF, ""⟩, ⟨token.EOF, ""⟩], rfl, ?_, rfl⟩
    intro x hx
    simp at hx
    exact hx
  | [t] =>
    refine ⟨[⟨token.EOF, ""⟩], rfl, ?_, rfl⟩
    intro x hx
    simpa using hx
  | t :: u :: us =>
    refine ⟨[], ?_, ?_, rfl⟩
    · show t :: u :: us = (t :: u :: us) ++ []
      rw [List.append_nil]
    · intro x hx
      cases hx

/-- C2: counterexample to the claim as stated. Parsing the source `-a * b`
succeeds with no errors and the program renders as the text given by
appendParens, yet feeding that rendered text back to the parser does not
reproduce the program: no prefix rule is registered for the LPAREN token, so
the re-parse records five errors and its program renders differently. -/
theorem render_reparse_cex :
    (parseFuel 50 "-a * b").map (fun r => (renderProgram r.1, r.2))
        = some (some "((-a) * b)", [])
    ∧ (parseFuel 50 "((-a) * b)").map (fun r => (renderProgram r.1, r.2.length))
        = some (some "(-a)b", 5)
    ∧ ¬("(-a)b" = "((-a) * b)") := by
  refine ⟨by decide, by decide, by decide⟩

set_option maxHeartbeats 1000000 in
/-- C2 (amended to the let/return statement forms this parser can actually
re-read): when a parse succeeds with no errors and every parsed statement is a
let or a return statement, the program renders to a text `r`, re-parsing `r`
with enough fuel succeeds with no errors, and the re-parsed program again
renders to exactly `r`. -/
theorem render_reparse_letReturn (fuel : Nat) (s : String) (prog : Program)
    (hparse : parseFuel fuel s = some (prog, []))
    (hlr : ∀ st ∈ prog.statements, isLetOrReturn st = true) :
    ∃ (r : String) (m : Nat) (prog2 : Program),
      renderProgram prog = some r
      ∧ parseFuel m r = some (prog2, [])
      ∧ renderProgram prog2 = some r := by
  rw [parseFuel] at hparse
  obtain ⟨a, hloop, hfa⟩ := Option.map_eq_some'.mp hparse
  injection hfa with hprog herr
  subst hprog
  have hgood : StreamGood (Parser.new (tokenize s)) :=
    streamGood_new _ (tokenize_good s)
  have hLRall : ∀ st ∈ a.1, LRStmt st :=
    parseProgramLoop_LRshape fuel (Parser.new (tokenize s)) [] a.1 a.2 hloop hgood hlr
      (by intro st h; cases h)
  obtain ⟨r, hrender, hrdata⟩ := renderProgram_LR a.1 hLRall
  have htok : tokenize r = a.1.flatMap blockToks ++ [⟨token.EOF, ""⟩] := by
    rw [tokenize_eq_lexAll, hrdata]
    exact lexAllFuel_blocks a.1 hLRall ((a.1.flatMap lrChars).length + 1) (le_refl _)
  obtain ⟨pad0, hstream0, hpad0, herr0⟩ := parserNew_stream (tokenize r)
  rw [htok, List.append_assoc] at hstream0
  have hpad' : ∀ t ∈ [({ type := token.EOF, literal := "" } : Token)] ++ pad0,
      t = ({ type := token.EOF, literal := "" } : Token) := by
    intro t ht
    rcases List.mem_append.1 ht with h | h
    · simpa using h
    · exact hpad0 t h
  rw [htok] at herr0
  obtain ⟨pf2, hloop2, herr2⟩ := parse_blocks a.1 hLRall (3 * a.1.length + 1)
    (Parser.new (a.1.flatMap blockToks ++ [⟨token.EOF, ""⟩])) []
    ([({ type := token.EOF, literal := "" } : Token)] ++ pad0)
    hstream0 hpad' (le_refl _)
  refine ⟨r, 3 * a.1.length + 1, ⟨a.1⟩, hrender, ?_, hrender⟩
  rw [parseFuel, htok, hloop2, Option.map_some', herr2, herr0]
  rfl

set_option maxHeartbeats 4000000 in
/-- Witness for the amended C2 theorem at the source `let x = 5;`. -/
theorem render_reparse_letReturn_witness :
    parseFuel 50 "let x = 5;"
        = some (⟨[.letStatement ⟨token.LET, "let"⟩
            (some ⟨⟨token.IDENT, "x"⟩, "x"⟩) none]⟩, [])
    ∧ (∀ st ∈ [Statement.letStatement ⟨token.LET, "let"⟩
          (some ⟨⟨token.IDENT, "x"⟩, "x"⟩) none], isLetOrReturn st = true)
    ∧ ∃ (r : String) (m : Nat) (prog2 : Program),
        renderProgram ⟨[.letStatement ⟨token.LET, "let"⟩
            (some ⟨⟨token.IDENT, "x"⟩, "x"⟩) none]⟩ = some r
        ∧ parseFuel m r = some (prog2, [])
        ∧ renderProgram prog2 = some r :=
  ⟨by rfl, by decide,
    render_reparse_letReturn 50 "let x = 5;"
      ⟨[.letStatement ⟨token.LET, "let"⟩ (some ⟨⟨token.IDENT, "x"⟩, "x"⟩) none]⟩
      (by rfl) (by decide)⟩

end Interp
